import Mathlib

/-!
Verification of the mac signing/notarization pipeline (iscript/src/iscript/mac.py)
against its natural-language specification.

The Python functions are shallow-embedded as executable Lean definitions.
Text (file contents, paths) is modelled as `List Char`; the Python string
primitives used by the source (`in`, `endswith`, `split`, `replace`,
`splitlines`) are modelled by the `str*` helpers below, translated from
Python's documented semantics (left-to-right, non-overlapping occurrence
scans; `s.replace(p, r) = r.join(s.split(p))` for non-empty `p`).
-/

namespace Iscript

/-! ## String primitives (models of the Python built-ins) -/

/-- Python `pat in s` (substring containment). -/
def strContains : List Char → List Char → Bool
  | [], pat => pat.isEmpty
  | c :: cs, pat => pat.isPrefixOf (c :: cs) || strContains cs pat

/-- Python `s.endswith(pat)`. -/
def strEndsWith (s pat : List Char) : Bool :=
  pat.isSuffixOf s

/-- Scanner for Python `s.split(pat)` (non-empty `pat`): a left-to-right,
non-overlapping scan.  `skip` counts characters of an already-matched
occurrence still to be consumed; `acc` holds the current part reversed. -/
def splitGo (pat : List Char) : List Char → Nat → List Char → List (List Char)
  | [], _, acc => [acc.reverse]
  | _ :: cs, Nat.succ skip, acc => splitGo pat cs skip acc
  | c :: cs, 0, acc =>
    if pat.isPrefixOf (c :: cs) then acc.reverse :: splitGo pat cs (pat.length - 1) []
    else splitGo pat cs 0 (c :: acc)

/-- Python `s.split(pat)` for non-empty `pat` (Python raises on an empty
separator; that case never arises in the source, we return `[s]`). -/
def strSplitOn (s pat : List Char) : List (List Char) :=
  if pat.isEmpty then [s] else splitGo pat s 0 []

/-- Python `s.replace(pat, rep)`: for non-empty `pat` it equals
`rep.join(s.split(pat))`, which is how we model it. -/
def strReplace (s pat rep : List Char) : List Char :=
  if pat.isEmpty then s else List.intercalate rep (strSplitOn s pat)

/-- `splitGo` never returns the empty list. -/
theorem splitGo_ne_nil (pat : List Char) :
    ∀ (s : List Char) (skip : Nat) (acc : List Char), splitGo pat s skip acc ≠ []
  | [], _, _ => by simp [splitGo]
  | _ :: cs, Nat.succ skip, acc => by
    simpa [splitGo] using splitGo_ne_nil pat cs skip acc
  | c :: cs, 0, acc => by
    unfold splitGo
    split
    · simp
    · exact splitGo_ne_nil pat cs 0 (c :: acc)

theorem intercalate_cons_of_ne_nil {α : Type} (sep x : List α) (xs : List (List α))
    (h : xs ≠ []) :
    List.intercalate sep (x :: xs) = x ++ sep ++ List.intercalate sep xs := by
  cases xs with
  | nil => exact absurd rfl h
  | cons y ys =>
    simp [List.intercalate, List.intersperse]

/-- Consuming the skip counter just drops characters. -/
theorem splitGo_skip (pat : List Char) :
    ∀ (k : Nat) (cs acc : List Char), splitGo pat cs k acc = splitGo pat (cs.drop k) 0 acc := by
  intro k
  induction k with
  | zero => intro cs acc; simp
  | succ k ih =>
    intro cs acc
    cases cs with
    | nil => simp [splitGo]
    | cons c cs' => simpa [splitGo] using ih cs' acc

/-- Reconstruction: joining the parts with the separator gives back the
string (Python: `sep.join(s.split(sep)) == s`). -/
theorem splitGo_recon (pat : List Char) (hpat : pat ≠ []) :
    ∀ (n : Nat) (s acc : List Char), s.length ≤ n →
      List.intercalate pat (splitGo pat s 0 acc) = acc.reverse ++ s := by
  intro n
  induction n with
  | zero =>
    intro s acc hs
    have : s = [] := List.eq_nil_of_length_eq_zero (Nat.le_zero.mp hs)
    subst this
    simp [splitGo, List.intercalate]
  | succ n ih =>
    intro s acc hs
    cases s with
    | nil => simp [splitGo, List.intercalate]
    | cons c cs =>
      unfold splitGo
      split
      case isTrue hpre =>
        have hpre' : pat <+: (c :: cs) := by
          exact List.isPrefixOf_iff_prefix.mp hpre
        obtain ⟨rest, hrest⟩ := hpre'
        rw [splitGo_skip pat (pat.length - 1) cs []]
        have hcs : cs = pat.tail ++ rest := by
          cases pat with
          | nil => exact absurd rfl hpat
          | cons p ps =>
            simp only [List.cons_append] at hrest
            exact (List.cons.injEq _ _ _ _ ▸ hrest).2 ▸ rfl
        have hdrop : cs.drop (pat.length - 1) = rest := by
          subst hcs
          have : (pat.tail ++ rest).drop pat.tail.length = rest := by
            exact List.drop_left _ _
          cases pat with
          | nil => exact absurd rfl hpat
          | cons p ps => simpa using this
        rw [hdrop]
        rw [intercalate_cons_of_ne_nil pat acc.reverse _ (splitGo_ne_nil pat rest 0 [])]
        have hlen : rest.length ≤ n := by
          have h1 : (c :: cs).length = pat.length + rest.length := by
            rw [← hrest]; simp
          have h2 : (c :: cs).length ≤ n + 1 := hs
          have h3 : 1 ≤ pat.length := by
            cases pat with
            | nil => exact absurd rfl hpat
            | cons _ _ => simp
          omega
        rw [ih rest [] hlen]
        simp [← hrest]
      case isFalse hpre =>
        have hlen : cs.length ≤ n := by
          have := hs; simp at this; omega
        rw [ih cs (c :: acc) hlen]
        simp

/-- Reconstruction for `strSplitOn`. -/
theorem strSplitOn_recon (s pat : List Char) (hpat : pat ≠ []) :
    List.intercalate pat (strSplitOn s pat) = s := by
  unfold strSplitOn
  rw [if_neg (by simpa using hpat)]
  simpa using splitGo_recon pat hpat s.length s [] le_rfl

/-- A two-part split means the separator occurs once, at the split point. -/
theorem strSplitOn_two (s pat a b : List Char) (h : strSplitOn s pat = [a, b]) :
    s = a ++ pat ++ b := by
  have hpat : pat ≠ [] := by
    intro hp
    subst hp
    simp [strSplitOn] at h
  have := strSplitOn_recon s pat hpat
  rw [h] at this
  rw [← this]
  rw [intercalate_cons_of_ne_nil pat a [b] (by simp)]
  simp [List.intercalate, List.intersperse]

/-- A three-part split means the separator occurs exactly twice. -/
theorem strSplitOn_three (s pat a b c : List Char) (h : strSplitOn s pat = [a, b, c]) :
    s = a ++ pat ++ b ++ pat ++ c := by
  have hpat : pat ≠ [] := by
    intro hp
    subst hp
    simp [strSplitOn] at h
  have := strSplitOn_recon s pat hpat
  rw [h] at this
  rw [← this]
  rw [intercalate_cons_of_ne_nil pat a [b, c] (by simp)]
  rw [intercalate_cons_of_ne_nil pat b [c] (by simp)]
  simp [List.intercalate, List.intersperse]

theorem strEndsWith_append (a pat : List Char) : strEndsWith (a ++ pat) pat = true := by
  unfold strEndsWith
  exact List.isSuffixOf_iff_suffix.mpr ⟨a, rfl⟩

/-! ## get_uuid_from_log (mac.py lines 702-735)

The notarization response is classified: the throttling error code first,
then any other `ERROR ` marker, and only then the per-line regex search
`RequestUUID = (?P<uuid>[a-zA-Z0-9-]+)`. -/

/-- The regex character class `[a-zA-Z0-9-]`. -/
def uuidChar (c : Char) : Bool :=
  c.isAlpha || c.isDigit || c == '-'

/-- A match of the regex anchored at the start of `l`: the literal
`RequestUUID = ` followed by a maximal non-empty run of `uuidChar`s. -/
def matchUuidAt (l : List Char) : Option (List Char) :=
  if ("RequestUUID = ".toList).isPrefixOf l then
    let run := (l.drop ("RequestUUID = ".toList).length).takeWhile uuidChar
    if run.isEmpty then none else some run
  else none

/-- `re.search` of the UUID regex in one line: the leftmost match. -/
def searchUuid : List Char → Option (List Char)
  | [] => none
  | c :: cs =>
    match matchUuidAt (c :: cs) with
    | some u => some u
    | none => searchUuid cs

/-- `contents.splitlines()`, modelled as splitting on a newline character
(the only line separator notarization logs contain). -/
def splitLines (s : List Char) : List (List Char) :=
  strSplitOn s ['\n']

inductive UuidOutcome where
  /-- `ThrottledNotarization` raised: `ERROR ITMS-10004` in the response. -/
  | throttled
  /-- `UnknownNotarizationError` raised: some other `ERROR ` in the response. -/
  | unknownError
  /-- The extracted `RequestUUID` value is returned. -/
  | found (id : List Char)
  /-- The final `IScriptError` (cannot find a UUID). -/
  | parseFailure
deriving DecidableEq

/-- `get_uuid_from_log`, as a function of the log file's contents (the file
read and the `OSError` branch are out of scope of the embedding). -/
def get_uuid_from_log (contents : List Char) : UuidOutcome :=
  if strContains contents ("ERROR ITMS-10004".toList) then .throttled
  else if strContains contents ("ERROR ".toList) then .unknownError
  else
    match (splitLines contents).findSome? searchUuid with
    | some id => .found id
    | none => .parseFailure

/-! ## App and check_required_attrs (mac.py lines 45-94) -/

/-- A Python attribute value as `check_required_attrs` sees it: every `App`
attribute is a string except `formats`, which holds the task's format list
(its attrs default `""` is also falsy, like `[]`). -/
inductive AttrVal where
  | vstr (s : String)
  | vlist (l : List String)
deriving DecidableEq

/-- The `App` attr.s class: one record per artifact.  All attributes default
to the empty string (`formats` to the empty list, see `AttrVal`).  The source
field `artifact_prefix` is spelled `artifact_pfx` here. -/
structure App where
  orig_path : String := ""
  parent_dir : String := ""
  app_path : String := ""
  app_name : String := ""
  zip_path : String := ""
  pkg_path : String := ""
  pkg_name : String := ""
  notarization_log_path : String := ""
  target_tar_path : String := ""
  target_pkg_path : String := ""
  formats : List String := []
  artifact_pfx : String := ""
deriving DecidableEq

/-- Python `getattr(self, att)` on an `App`, `none` when `hasattr` is false. -/
def getAttr (app : App) (att : String) : Option AttrVal :=
  if att = "orig_path" then some (.vstr app.orig_path)
  else if att = "parent_dir" then some (.vstr app.parent_dir)
  else if att = "app_path" then some (.vstr app.app_path)
  else if att = "app_name" then some (.vstr app.app_name)
  else if att = "zip_path" then some (.vstr app.zip_path)
  else if att = "pkg_path" then some (.vstr app.pkg_path)
  else if att = "pkg_name" then some (.vstr app.pkg_name)
  else if att = "notarization_log_path" then some (.vstr app.notarization_log_path)
  else if att = "target_tar_path" then some (.vstr app.target_tar_path)
  else if att = "target_pkg_path" then some (.vstr app.target_pkg_path)
  else if att = "formats" then some (.vlist app.formats)
  else if att = "artifact_prefix" then some (.vstr app.artifact_pfx)
  else none

/-- Python truthiness of `getattr`: absent (`hasattr` false), the empty
string and the empty list are all falsy. -/
def attrTruthy : Option AttrVal → Bool
  | none => false
  | some (.vstr s) => !(s == "")
  | some (.vlist l) => !l.isEmpty

/-- `App.check_required_attrs`: raise `IScriptError("Missing ... attr!")` on
the first required attribute that is unset or falsy.  The error carries the
attribute's name. -/
def check_required_attrs (app : App) (required_attrs : List String) : Except String Unit :=
  match required_attrs with
  | [] => .ok ()
  | att :: rest =>
    if attrTruthy (getAttr app att) then check_required_attrs app rest
    else .error att

/-- C1: a notarization response containing the throttling code
`ERROR ITMS-10004` is classified as throttled regardless of any
`RequestUUID` line; otherwise a response containing `ERROR ` is classified
as an unknown notarization error; otherwise, if the per-line regex search
finds a `RequestUUID = <id>` match, that identifier is returned; otherwise
the outcome is the generic parse failure.  The two error checks precede the
UUID search and the four outcomes are the four mutually exclusive
constructors of `UuidOutcome`. -/
theorem get_uuid_from_log_classification (contents : List Char) :
    (strContains contents ("ERROR ITMS-10004".toList) = true →
      get_uuid_from_log contents = .throttled) ∧
    (strContains contents ("ERROR ITMS-10004".toList) = false →
      strContains contents ("ERROR ".toList) = true →
      get_uuid_from_log contents = .unknownError) ∧
    (∀ id, strContains contents ("ERROR ITMS-10004".toList) = false →
      strContains contents ("ERROR ".toList) = false →
      (splitLines contents).findSome? searchUuid = some id →
      get_uuid_from_log contents = .found id) ∧
    (strContains contents ("ERROR ITMS-10004".toList) = false →
      strContains contents ("ERROR ".toList) = false →
      (splitLines contents).findSome? searchUuid = none →
      get_uuid_from_log contents = .parseFailure) := by
  refine ⟨?_, ?_, ?_, ?_⟩
  · intro h1
    unfold get_uuid_from_log
    rw [h1]
    simp
  · intro h1 h2
    unfold get_uuid_from_log
    rw [h1, h2]
    simp
  · intro id h1 h2 h3
    unfold get_uuid_from_log
    rw [h1, h2, h3]
    simp
  · intro h1 h2 h3
    unfold get_uuid_from_log
    rw [h1, h2, h3]
    simp

/-- C1 witness: a response that carries both a `RequestUUID` line and the
throttling code is classified as throttled, not as a found identifier. -/
theorem get_uuid_from_log_classification_witness :
    get_uuid_from_log ("RequestUUID = 2efe2717\nERROR ITMS-10004".toList) = .throttled ∧
    (splitLines ("RequestUUID = 2efe2717\nERROR ITMS-10004".toList)).findSome? searchUuid
      = some ("2efe2717".toList) := by
  refine ⟨(get_uuid_from_log_classification _).1 (by decide), by decide⟩

/-- C9: the stage-entry attribute check fails exactly when some required
attribute of the record is absent or has a falsy value; in particular an
attribute left at (or set to) the empty string counts as unset and fails
the check. -/
theorem check_required_attrs_spec (app : App) (required_attrs : List String) :
    ((∃ e, check_required_attrs app required_attrs = .error e) ↔
      ∃ att ∈ required_attrs, attrTruthy (getAttr app att) = false) ∧
    (∀ att ∈ required_attrs, getAttr app att = some (.vstr "") →
      ∃ e, check_required_attrs app required_attrs = .error e) := by
  constructor
  · induction required_attrs with
    | nil => simp [check_required_attrs]
    | cons att rest ih =>
      unfold check_required_attrs
      by_cases h : attrTruthy (getAttr app att) = true
      · simp only [h, if_true]
        constructor
        · intro he
          obtain ⟨a, ha, hfa⟩ := ih.mp he
          exact ⟨a, List.mem_cons_of_mem _ ha, hfa⟩
        · rintro ⟨a, ha, hfa⟩
          rcases List.mem_cons.mp ha with rfl | ha'
          · rw [h] at hfa; cases hfa
          · exact ih.mpr ⟨a, ha', hfa⟩
      · rw [Bool.not_eq_true] at h
        simp only [h]
        constructor
        · intro _
          exact ⟨att, List.mem_cons_self _ _, h⟩
        · intro _
          exact ⟨att, by simp⟩
  · intro att hmem hval
    have hfalsy : attrTruthy (getAttr app att) = false := by
      rw [hval]; simp [attrTruthy]
    -- reuse the iff just proved
    clear hval
    induction required_attrs with
    | nil => cases hmem
    | cons a rest ih =>
      unfold check_required_attrs
      by_cases h : attrTruthy (getAttr app a) = true
      · simp only [h, if_true]
        rcases List.mem_cons.mp hmem with rfl | hmem'
        · rw [h] at hfalsy; cases hfalsy
        · exact ih hmem'
      · rw [Bool.not_eq_true] at h
        simp only [h]
        exact ⟨a, by simp⟩

/-- C9 witness: a fresh record (all attributes at their empty defaults)
fails the check for `orig_path`. -/
theorem check_required_attrs_spec_witness :
    ∃ e, check_required_attrs {} ["orig_path"] = Except.error e := by
  exact (check_required_attrs_spec {} ["orig_path"]).2 "orig_path" (by simp) (by decide)

/-! ## Final publish paths: tar_apps (lines 997-1004),
copy_pkgs_to_artifact_dir (lines 1081-1088), and the tar helpers
(lines 98-112). -/

/-- `_get_tar_create_options`: `czf` for `.tar.gz`, `cjf` for `.tar.bz2`,
`IScriptError` otherwise. -/
def _get_tar_create_options (path : List Char) : Except Unit (List Char) :=
  if strEndsWith path (".tar.gz".toList) then .ok ("czf".toList)
  else if strEndsWith path (".tar.bz2".toList) then .ok ("cjf".toList)
  else .error ()

/-- `_get_pkg_name_from_tarball`: the first matching archive suffix is
replaced (every occurrence of it, Python `str.replace`) by `.pkg`. -/
def _get_pkg_name_from_tarball (path : List Char) : Except Unit (List Char) :=
  if strEndsWith path (".tar.gz".toList) then .ok (strReplace path (".tar.gz".toList) (".pkg".toList))
  else if strEndsWith path (".tar.bz2".toList) then .ok (strReplace path (".tar.bz2".toList) (".pkg".toList))
  else if strEndsWith path (".dmg".toList) then .ok (strReplace path (".dmg".toList) (".pkg".toList))
  else if strEndsWith path (".pkg".toList) then .ok (strReplace path (".pkg".toList) (".pkg".toList))
  else .error ()

/-- The string `"{}/{}{}".format(config["artifact_dir"], app.artifact_prefix,
app.orig_path.split(app.artifact_prefix)[1])` shared by `tar_apps` and
`copy_pkgs_to_artifact_dir` (Python `split` splits at every occurrence, and
`[1]` is the text between the first and second occurrence). -/
def formatTargetPath (artifact_dir pfx orig_path : List Char) : List Char :=
  artifact_dir ++ '/' :: (pfx ++ (strSplitOn orig_path pfx).getD 1 [])

/-- `app.target_tar_path` as `tar_apps` computes it: the formatted path with
every occurrence of `.dmg` replaced by `.tar.gz`. -/
def tar_apps_target_path (artifact_dir pfx orig_path : List Char) : List Char :=
  strReplace (formatTargetPath artifact_dir pfx orig_path) (".dmg".toList) (".tar.gz".toList)

/-- `app.target_pkg_path` as `copy_pkgs_to_artifact_dir` computes it. -/
def copy_pkgs_target_path (artifact_dir pfx orig_path : List Char) : Except Unit (List Char) :=
  _get_pkg_name_from_tarball (formatTargetPath artifact_dir pfx orig_path)

/-- C7 counterexample: when the artifact prefix occurs twice in
`originalPath`, `split(prefix)[1]` keeps only the text up to the second
occurrence, so the derived tar path drops every later path segment instead
of preserving them verbatim. -/
theorem tar_apps_target_path_counterexample :
    tar_apps_target_path ("A".toList) ("public/".toList)
        ("w/public/x/public/target.tar.gz".toList)
      = "A/public/x/".toList ∧
    "A/public/x/".toList ≠ "A/public/x/public/target.tar.gz".toList := by
  decide

/-- A string ending in `ext1` does not also end in an `ext2` that is
suffix-incomparable with `ext1` (suffixes of one string are totally ordered
by the suffix relation). -/
theorem strEndsWith_false_of_endsWith (s ext1 ext2 : List Char)
    (h1 : strEndsWith s ext1 = true)
    (h2 : ext1.isSuffixOf ext2 = false) (h3 : ext2.isSuffixOf ext1 = false) :
    strEndsWith s ext2 = false := by
  by_contra hcon
  rw [Bool.not_eq_false] at hcon
  unfold strEndsWith at h1 hcon
  have hs1 := List.isSuffixOf_iff_suffix.mp h1
  have hs2 := List.isSuffixOf_iff_suffix.mp hcon
  rcases List.suffix_or_suffix_of_suffix hs1 hs2 with h | h
  · have := List.isSuffixOf_iff_suffix.mpr h
    rw [h2] at this
    cases this
  · have := List.isSuffixOf_iff_suffix.mpr h
    rw [h3] at this
    cases this

/-- When the extension occurs exactly once, terminally, `str.replace`
substitutes exactly the terminal extension. -/
theorem replace_terminal (raw ext rep stem : List Char)
    (h : strSplitOn raw ext = [stem, []]) :
    raw = stem ++ ext ∧ strEndsWith raw ext = true ∧
    strReplace raw ext rep = stem ++ rep := by
  have hshape := strSplitOn_two raw ext stem [] h
  rw [List.append_nil] at hshape
  have hne : ext ≠ [] := by
    intro hx
    subst hx
    simp [strSplitOn] at h
  refine ⟨hshape, ?_, ?_⟩
  · rw [hshape]
    exact strEndsWith_append stem ext
  · unfold strReplace
    rw [if_neg (by simpa using hne), h]
    rw [intercalate_cons_of_ne_nil _ stem [[]] (by simp)]
    simp [List.intercalate, List.intersperse]

/-- C7 (amended): provided the artifact prefix occurs exactly once in
`originalPath`, the record's `originalPath` decomposes as
`pre ++ prefix ++ suf` and the derived publish paths equal the configured
artifact root, a slash, the prefix and `suf` — every path segment after the
prefix verbatim — except that the archive-suffix substitution applies to
every occurrence of the archive suffix in the derived path, so the verbatim
form additionally needs the suffix to occur at most once, terminally.  The
target package path substitutes `.pkg` for the terminal archive suffix for
each of the four recognized suffixes `.tar.gz`, `.tar.bz2`, `.dmg` and
`.pkg`. -/
theorem target_paths_amended (artifact_dir pfx orig_path pre suf : List Char)
    (h1 : strSplitOn orig_path pfx = [pre, suf]) :
    orig_path = pre ++ pfx ++ suf ∧
    (strSplitOn (artifact_dir ++ '/' :: (pfx ++ suf)) (".dmg".toList)
        = [artifact_dir ++ '/' :: (pfx ++ suf)] →
      tar_apps_target_path artifact_dir pfx orig_path
        = artifact_dir ++ '/' :: (pfx ++ suf)) ∧
    (∀ stem, strSplitOn (artifact_dir ++ '/' :: (pfx ++ suf)) (".dmg".toList) = [stem, []] →
      tar_apps_target_path artifact_dir pfx orig_path = stem ++ ".tar.gz".toList) ∧
    (∀ stem, strSplitOn (artifact_dir ++ '/' :: (pfx ++ suf)) (".tar.gz".toList) = [stem, []] →
      copy_pkgs_target_path artifact_dir pfx orig_path = .ok (stem ++ ".pkg".toList)) ∧
    (∀ stem, strSplitOn (artifact_dir ++ '/' :: (pfx ++ suf)) (".tar.bz2".toList) = [stem, []] →
      copy_pkgs_target_path artifact_dir pfx orig_path = .ok (stem ++ ".pkg".toList)) ∧
    (∀ stem, strSplitOn (artifact_dir ++ '/' :: (pfx ++ suf)) (".dmg".toList) = [stem, []] →
      copy_pkgs_target_path artifact_dir pfx orig_path = .ok (stem ++ ".pkg".toList)) ∧
    (∀ stem, strSplitOn (artifact_dir ++ '/' :: (pfx ++ suf)) (".pkg".toList) = [stem, []] →
      copy_pkgs_target_path artifact_dir pfx orig_path = .ok (stem ++ ".pkg".toList)) := by
  have hfmt : formatTargetPath artifact_dir pfx orig_path
      = artifact_dir ++ '/' :: (pfx ++ suf) := by
    unfold formatTargetPath
    rw [h1]
    rfl
  refine ⟨?_, ?_, ?_, ?_, ?_, ?_, ?_⟩
  · have := strSplitOn_two orig_path pfx pre suf h1
    simpa using this
  · intro h2
    unfold tar_apps_target_path
    rw [hfmt]
    unfold strReplace
    rw [if_neg (by decide), h2]
    simp [List.intercalate]
  · intro stem h2
    unfold tar_apps_target_path
    rw [hfmt]
    unfold strReplace
    rw [if_neg (by decide), h2]
    rw [intercalate_cons_of_ne_nil _ stem [[]] (by simp)]
    simp [List.intercalate, List.intersperse]
  · intro stem h2
    obtain ⟨_, hends, hrepl⟩ := replace_terminal _ _ (".pkg".toList) _ h2
    unfold copy_pkgs_target_path
    rw [hfmt]
    unfold _get_pkg_name_from_tarball
    rw [if_pos hends, hrepl]
  · intro stem h2
    obtain ⟨_, hends, hrepl⟩ := replace_terminal _ _ (".pkg".toList) _ h2
    unfold copy_pkgs_target_path
    rw [hfmt]
    unfold _get_pkg_name_from_tarball
    rw [if_neg (by
      rw [strEndsWith_false_of_endsWith _ (".tar.bz2".toList) (".tar.gz".toList) hends
        (by decide) (by decide)]
      simp)]
    rw [if_pos hends, hrepl]
  · intro stem h2
    obtain ⟨_, hends, hrepl⟩ := replace_terminal _ _ (".pkg".toList) _ h2
    unfold copy_pkgs_target_path
    rw [hfmt]
    unfold _get_pkg_name_from_tarball
    rw [if_neg (by
      rw [strEndsWith_false_of_endsWith _ (".dmg".toList) (".tar.gz".toList) hends
        (by decide) (by decide)]
      simp)]
    rw [if_neg (by
      rw [strEndsWith_false_of_endsWith _ (".dmg".toList) (".tar.bz2".toList) hends
        (by decide) (by decide)]
      simp)]
    rw [if_pos hends, hrepl]
  · intro stem h2
    obtain ⟨_, hends, hrepl⟩ := replace_terminal _ _ (".pkg".toList) _ h2
    unfold copy_pkgs_target_path
    rw [hfmt]
    unfold _get_pkg_name_from_tarball
    rw [if_neg (by
      rw [strEndsWith_false_of_endsWith _ (".pkg".toList) (".tar.gz".toList) hends
        (by decide) (by decide)]
      simp)]
    rw [if_neg (by
      rw [strEndsWith_false_of_endsWith _ (".pkg".toList) (".tar.bz2".toList) hends
        (by decide) (by decide)]
      simp)]
    rw [if_neg (by
      rw [strEndsWith_false_of_endsWith _ (".pkg".toList) (".dmg".toList) hends
        (by decide) (by decide)]
      simp)]
    rw [if_pos hends, hrepl]

/-- C7 witness: a single-occurrence prefix with a terminal `.dmg` yields the
verbatim tar path with only the documented suffix substitution, and the
same record's package path substitutes `.pkg` for the terminal `.dmg`. -/
theorem target_paths_amended_witness :
    tar_apps_target_path ("A".toList) ("public/".toList)
        ("w/public/build/target.dmg".toList)
      = "A/public/build/target.tar.gz".toList ∧
    copy_pkgs_target_path ("A".toList) ("public/".toList)
        ("w/public/build/target.dmg".toList)
      = .ok ("A/public/build/target.pkg".toList) := by
  constructor
  · have h := (target_paths_amended ("A".toList) ("public/".toList)
        ("w/public/build/target.dmg".toList) ("w/".toList) ("build/target.dmg".toList)
        (by decide)).2.2.1 ("A/public/build/target".toList) (by decide)
    exact h.trans (by decide)
  · have h := (target_paths_amended ("A".toList) ("public/".toList)
        ("w/public/build/target.dmg".toList) ("w/".toList) ("build/target.dmg".toList)
        (by decide)).2.2.2.2.2.1 ("A/public/build/target".toList) (by decide)
    exact h.trans (congrArg Except.ok (by decide))

/-- Substring containment is precisely the existence of an occurrence. -/
theorem strContains_iff (pat : List Char) :
    ∀ (s : List Char), strContains s pat = true ↔ ∃ u v, s = u ++ pat ++ v := by
  intro s
  induction s with
  | nil =>
    simp only [strContains]
    constructor
    · intro h
      have hp : pat = [] := by simpa using h
      exact ⟨[], [], by simp [hp]⟩
    · rintro ⟨u, v, huv⟩
      have h1 : u ++ (pat ++ v) = [] := by rw [← List.append_assoc, ← huv]
      have h2 := List.append_eq_nil.mp h1
      have h3 := List.append_eq_nil.mp h2.2
      simp [h3.1]
  | cons c cs ih =>
    simp only [strContains, Bool.or_eq_true]
    constructor
    · intro h
      rcases h with hpre | hcs
      · obtain ⟨t, ht⟩ := List.isPrefixOf_iff_prefix.mp hpre
        exact ⟨[], t, by simp [← ht]⟩
      · obtain ⟨u, v, huv⟩ := ih.mp hcs
        exact ⟨c :: u, v, by simp [huv]⟩
    · rintro ⟨u, v, huv⟩
      cases u with
      | nil =>
        left
        exact List.isPrefixOf_iff_prefix.mpr ⟨v, by simpa using huv.symm⟩
      | cons c2 u2 =>
        right
        rw [List.cons_append, List.cons_append, List.cons.injEq] at huv
        exact ih.mpr ⟨u2, v, by simpa using huv.2⟩

theorem strContains_of_isPrefixOf (pat s : List Char) (h : pat.isPrefixOf s = true) :
    strContains s pat = true := by
  cases s with
  | nil =>
    have hp := List.isPrefixOf_iff_prefix.mp h
    have : pat = [] := List.prefix_nil.mp hp
    simp [strContains, this]
  | cons c cs => simp [strContains, h]

theorem isPrefixOf_append_left (p a b : List Char) (h : p.isPrefixOf (a ++ b) = true)
    (hlen : p.length ≤ a.length) : p.isPrefixOf a = true := by
  have hp := List.isPrefixOf_iff_prefix.mp h
  have heq : p = (a ++ b).take p.length := List.prefix_iff_eq_take.mp hp
  rw [List.take_append_of_le_length hlen] at heq
  rw [heq]
  exact List.isPrefixOf_iff_prefix.mpr (List.take_prefix _ _)

/-- An occurrence of `pat` in `X ++ Y` lies in `X`, lies in `Y`, or crosses
the boundary: a non-trivial prefix of `pat` ends `X` and the matching rest
starts `Y`. -/
theorem strContains_append_cases (pat : List Char) :
    ∀ (X Y : List Char), strContains (X ++ Y) pat = true →
      strContains X pat = true ∨ strContains Y pat = true ∨
      ∃ n, 0 < n ∧ n < pat.length ∧
        strEndsWith X (pat.take n) = true ∧ (pat.drop n).isPrefixOf Y = true := by
  intro X
  induction X with
  | nil =>
    intro Y h
    right; left
    simpa using h
  | cons c X2 ih =>
    intro Y h
    rw [List.cons_append] at h
    have h2 : pat.isPrefixOf (c :: (X2 ++ Y)) = true ∨ strContains (X2 ++ Y) pat = true := by
      simpa [strContains, Bool.or_eq_true] using h
    rcases h2 with hpre | hrest
    · by_cases hlen : pat.length ≤ (c :: X2).length
      · left
        have hpx : pat.isPrefixOf (c :: X2) = true := by
          have hpre2 : pat.isPrefixOf ((c :: X2) ++ Y) = true := by
            simpa using hpre
          exact isPrefixOf_append_left pat (c :: X2) Y hpre2 hlen
        exact strContains_of_isPrefixOf pat (c :: X2) hpx
      · push_neg at hlen
        right; right
        obtain ⟨t, ht⟩ := List.isPrefixOf_iff_prefix.mp hpre
        have ht2 : pat ++ t = (c :: X2) ++ Y := by simpa using ht
        refine ⟨(c :: X2).length, by simp, hlen, ?_, ?_⟩
        · have e1 : (pat ++ t).take (c :: X2).length = pat.take (c :: X2).length :=
            List.take_append_of_le_length (le_of_lt hlen)
          have e2 : ((c :: X2) ++ Y).take (c :: X2).length = c :: X2 :=
            List.take_left _ _
          have e3 : pat.take (c :: X2).length = c :: X2 := by
            rw [← e1, ht2, e2]
          rw [e3]
          unfold strEndsWith
          exact List.isSuffixOf_iff_suffix.mpr List.suffix_rfl
        · have e1 : (pat ++ t).drop (c :: X2).length
              = pat.drop (c :: X2).length ++ t :=
            List.drop_append_of_le_length (le_of_lt hlen)
          have e2 : ((c :: X2) ++ Y).drop (c :: X2).length = Y :=
            List.drop_left _ _
          have e3 : pat.drop (c :: X2).length ++ t = Y := by
            rw [← e1, ht2, e2]
          exact List.isPrefixOf_iff_prefix.mpr ⟨t, e3⟩
    · rcases ih Y hrest with h1 | h1 | ⟨n, hn0, hnl, hend, hpre2⟩
      · left
        simp [strContains, h1]
      · right; left
        exact h1
      · right; right
        refine ⟨n, hn0, hnl, ?_, hpre2⟩
        unfold strEndsWith at hend ⊢
        have hsuf := List.isSuffixOf_iff_suffix.mp hend
        exact List.isSuffixOf_iff_suffix.mpr (hsuf.trans (List.suffix_cons c X2))

/-- The invariant of the scanner: if no restart position inside the
accumulated part begins a match against the remaining input, the part
itself cannot contain the separator. -/
theorem acc_reverse_no_pat (pat : List Char) (hpat : pat ≠ []) (s acc : List Char)
    (hinv : ∀ k, 0 < k → k ≤ acc.length →
      pat.isPrefixOf ((acc.take k).reverse ++ s) = false) :
    strContains acc.reverse pat = false := by
  rcases Bool.eq_false_or_eq_true (strContains acc.reverse pat) with hb | hb
  case inr => exact hb
  exfalso
  obtain ⟨u, v, huv⟩ := (strContains_iff pat acc.reverse).mp hb
  have hacc : acc = (v.reverse ++ pat.reverse) ++ u.reverse := by
    have h2 := congrArg List.reverse huv
    simpa [List.reverse_append] using h2
  have hk := hinv (pat.length + v.length)
    (by have := List.length_pos.mpr hpat; omega)
    (by rw [hacc]; simp only [List.length_append, List.length_reverse]; omega)
  have htake : acc.take (pat.length + v.length) = v.reverse ++ pat.reverse := by
    rw [hacc]
    exact List.take_left' (by simp only [List.length_append, List.length_reverse]; omega)
  rw [htake] at hk
  have heq : (v.reverse ++ pat.reverse).reverse ++ s = pat ++ (v ++ s) := by
    simp [List.reverse_append]
  rw [heq] at hk
  have hpp : pat.isPrefixOf (pat ++ (v ++ s)) = true :=
    List.isPrefixOf_iff_prefix.mpr (List.prefix_append pat (v ++ s))
  rw [hpp] at hk
  cases hk

/-- No part produced by the scanner contains the separator. -/
theorem splitGo_parts_no_pat (pat : List Char) (hpat : pat ≠ []) :
    ∀ (s : List Char) (skip : Nat) (acc : List Char),
      (0 < skip → acc = []) →
      (∀ k, 0 < k → k ≤ acc.length →
        pat.isPrefixOf ((acc.take k).reverse ++ s) = false) →
      ∀ p ∈ splitGo pat s skip acc, strContains p pat = false
  | [], skip, acc => by
    intro _ hinv p hp
    simp only [splitGo, List.mem_singleton] at hp
    subst hp
    exact acc_reverse_no_pat pat hpat [] acc hinv
  | c :: cs, Nat.succ skip, acc => by
    intro hskip _ p hp
    have hacc := hskip (Nat.succ_pos skip)
    subst hacc
    simp only [splitGo] at hp
    exact splitGo_parts_no_pat pat hpat cs skip []
      (fun _ => rfl)
      (fun k hk0 hkl => absurd hkl (by simp; omega)) p hp
  | c :: cs, 0, acc => by
    intro _ hinv p hp
    unfold splitGo at hp
    by_cases hpre : pat.isPrefixOf (c :: cs) = true
    · rw [if_pos hpre] at hp
      rcases List.mem_cons.mp hp with hpe | hptail
      · subst hpe
        exact acc_reverse_no_pat pat hpat (c :: cs) acc hinv
      · exact splitGo_parts_no_pat pat hpat cs (pat.length - 1) []
          (fun _ => rfl)
          (fun k hk0 hkl => absurd hkl (by simp; omega)) p hptail
    · rw [if_neg hpre] at hp
      have hpf : pat.isPrefixOf (c :: cs) = false := by
        cases hq : pat.isPrefixOf (c :: cs) with
        | false => rfl
        | true => exact absurd hq hpre
      refine splitGo_parts_no_pat pat hpat cs 0 (c :: acc)
        (fun h => absurd h (by omega)) ?_ p hp
      intro k hk0 hkl
      cases k with
      | zero => exact absurd hk0 (by omega)
      | succ k2 =>
        have htk : (c :: acc).take (k2 + 1) = c :: acc.take k2 := rfl
        rw [htk]
        have hrev : (c :: acc.take k2).reverse ++ cs
            = (acc.take k2).reverse ++ (c :: cs) := by
          simp
        rw [hrev]
        cases Nat.eq_zero_or_pos k2 with
        | inl h0 =>
          subst h0
          simpa using hpf
        | inr hk2 =>
          exact hinv k2 hk2 (by simp only [List.length_cons] at hkl; omega)

/-- No part of a Python split contains the separator. -/
theorem strSplitOn_parts_no_pat (s pat : List Char) (hpat : pat ≠ []) :
    ∀ p ∈ strSplitOn s pat, strContains p pat = false := by
  unfold strSplitOn
  rw [if_neg (by simpa using hpat)]
  exact splitGo_parts_no_pat pat hpat s 0 []
    (fun h => absurd h (by omega))
    (fun k hk0 hkl => absurd hkl (by simp; omega))

/-- When the skip counter covers the rest of the string, the scanner just
closes the current part. -/
theorem splitGo_skip_all (pat : List Char) :
    ∀ (s : List Char) (skip : Nat) (acc : List Char), s.length ≤ skip →
      splitGo pat s skip acc = [acc.reverse]
  | [], skip, acc => by
    intro _
    simp [splitGo]
  | c :: cs, skip, acc => by
    intro hlen
    cases skip with
    | zero =>
      exact absurd hlen (by simp)
    | succ k =>
      simp only [splitGo]
      exact splitGo_skip_all pat cs k acc
        (by simp only [List.length_cons] at hlen; omega)

theorem getLast_cons_of_ne_nil {α : Type} (a : α) (l : List α) (h : l ≠ []) :
    (a :: l).getLast? = l.getLast? := by
  cases l with
  | nil => exact absurd rfl h
  | cons b l2 => exact List.getLast?_cons_cons

/-- For a border-free separator (no proper prefix of `pat` is also a proper
suffix), a string ending in `pat` splits into parts whose last part is
empty: the greedy scanner cannot destroy the terminal occurrence. -/
theorem splitGo_getLast_nil (pat : List Char) (hpat : pat ≠ [])
    (hborder : ∀ k, k < pat.length → 0 < k →
      pat.take (pat.length - k) ≠ pat.drop k) :
    ∀ (fuel : Nat) (s : List Char) (skip : Nat) (acc : List Char),
      s.length ≤ fuel →
      pat.isSuffixOf s = true →
      skip + pat.length ≤ s.length →
      (splitGo pat s skip acc).getLast? = some [] := by
  intro fuel
  induction fuel with
  | zero =>
    intro s skip acc hfuel hsuf _
    have hs : s = [] := List.eq_nil_of_length_eq_zero (Nat.le_zero.mp hfuel)
    subst hs
    have hq := List.isSuffixOf_iff_suffix.mp hsuf
    exact absurd (List.suffix_nil.mp hq) hpat
  | succ m ih =>
    intro s skip acc hfuel hsuf hskip
    cases s with
    | nil =>
      have hq := List.isSuffixOf_iff_suffix.mp hsuf
      exact absurd (List.suffix_nil.mp hq) hpat
    | cons c cs =>
      cases skip with
      | succ k =>
        simp only [splitGo]
        apply ih cs k acc
          (by simp only [List.length_cons] at hfuel; omega) ?_
          (by simp only [List.length_cons] at hskip; omega)
        obtain ⟨t, ht⟩ := List.isSuffixOf_iff_suffix.mp hsuf
        cases t with
        | nil =>
          exfalso
          have hps : pat = c :: cs := by simpa using ht
          have hl := congrArg List.length hps
          simp only [List.length_cons] at hl hskip
          omega
        | cons d t2 =>
          have ht' : d :: (t2 ++ pat) = c :: cs := by simpa using ht
          injection ht' with hd ht2
          exact List.isSuffixOf_iff_suffix.mpr ⟨t2, ht2⟩
      | zero =>
        by_cases hpre : pat.isPrefixOf (c :: cs) = true
        · unfold splitGo
          rw [if_pos hpre,
            getLast_cons_of_ne_nil _ _ (splitGo_ne_nil pat cs (pat.length - 1) [])]
          obtain ⟨t, ht⟩ := List.isPrefixOf_iff_prefix.mp hpre
          obtain ⟨stem, hst⟩ := List.isSuffixOf_iff_suffix.mp hsuf
          by_cases hlen : (c :: cs).length = pat.length
          · have hcl : cs.length ≤ pat.length - 1 := by
              have h2 := congrArg List.length ht
              simp only [List.length_append, List.length_cons] at h2 hlen
              omega
            rw [splitGo_skip_all pat cs (pat.length - 1) [] hcl]
            simp
          · have hPle : pat.length ≤ (c :: cs).length := by
              have h2 := congrArg List.length ht
              simp only [List.length_append] at h2
              omega
            have hPlt : pat.length < (c :: cs).length :=
              lt_of_le_of_ne hPle (fun h => hlen h.symm)
            have h2P : 2 * pat.length ≤ (c :: cs).length := by
              by_contra hcon
              push_neg at hcon
              have hstl := congrArg List.length hst
              simp only [List.length_append] at hstl
              have hdpos : 0 < stem.length := by omega
              have hdlt : stem.length < pat.length := by omega
              have heq2 : pat ++ t = stem ++ pat := ht.trans hst.symm
              have hdrop : pat.drop stem.length ++ t = pat := by
                have hq1 : (pat ++ t).drop stem.length = pat.drop stem.length ++ t :=
                  List.drop_append_of_le_length (le_of_lt hdlt)
                have hq2 : (stem ++ pat).drop stem.length = pat :=
                  List.drop_left' rfl
                rw [heq2, hq2] at hq1
                exact hq1.symm
              have htke : pat.take (pat.length - stem.length) = pat.drop stem.length := by
                have hq1 : (pat.drop stem.length ++ t).take (pat.length - stem.length)
                    = pat.drop stem.length :=
                  List.take_left' (by simp)
                rw [hdrop] at hq1
                exact hq1
              exact hborder stem.length hdlt hdpos htke
            apply ih cs (pat.length - 1) []
              (by simp only [List.length_cons] at hfuel; omega) ?_ ?_
            · cases stem with
              | nil =>
                exfalso
                have hstl := congrArg List.length hst
                simp only [List.nil_append, List.length_cons] at hstl hPlt
                omega
              | cons d stem2 =>
                have ht' : d :: (stem2 ++ pat) = c :: cs := by simpa using hst
                injection ht' with hd ht2
                exact List.isSuffixOf_iff_suffix.mpr ⟨stem2, ht2⟩
            · have hp1 : 0 < pat.length := List.length_pos.mpr hpat
              simp only [List.length_cons] at h2P
              omega
        · unfold splitGo
          rw [if_neg hpre]
          obtain ⟨stem, hst⟩ := List.isSuffixOf_iff_suffix.mp hsuf
          cases stem with
          | nil =>
            exfalso
            have hps : pat = c :: cs := by simpa using hst
            rw [hps] at hpre
            exact hpre (List.isPrefixOf_iff_prefix.mpr List.prefix_rfl)
          | cons d stem2 =>
            have ht' : d :: (stem2 ++ pat) = c :: cs := by simpa using hst
            injection ht' with hd ht2
            apply ih cs 0 (c :: acc)
              (by simp only [List.length_cons] at hfuel; omega) ?_ ?_
            · exact List.isSuffixOf_iff_suffix.mpr ⟨stem2, ht2⟩
            · have hq := congrArg List.length ht2
              simp only [List.length_append] at hq
              omega

/-- A string ending in a border-free separator splits with an empty last
part. -/
theorem strSplitOn_getLast_nil (s pat : List Char) (hpat : pat ≠ [])
    (hborder : ∀ k, k < pat.length → 0 < k →
      pat.take (pat.length - k) ≠ pat.drop k)
    (hend : strEndsWith s pat = true) :
    (strSplitOn s pat).getLast? = some [] := by
  unfold strSplitOn
  rw [if_neg (by simpa using hpat)]
  unfold strEndsWith at hend
  apply splitGo_getLast_nil pat hpat hborder s.length s 0 [] le_rfl hend
  have hq := List.IsSuffix.length_le (List.isSuffixOf_iff_suffix.mp hend)
  omega

/-- Appending an empty last part appends one more separator. -/
theorem intercalate_append_nil {α : Type} (sep : List α) :
    ∀ (q : List (List α)), q ≠ [] →
      List.intercalate sep (q ++ [[]]) = List.intercalate sep q ++ sep
  | [], h => absurd rfl h
  | [x], _ => by
    simp only [List.cons_append, List.nil_append]
    rw [intercalate_cons_of_ne_nil sep x [[]] (by simp)]
    simp [List.intercalate, List.intersperse]
  | x :: y :: q2, _ => by
    have hstep : (x :: y :: q2) ++ [[]] = x :: ((y :: q2) ++ [[]]) := rfl
    rw [hstep,
        intercalate_cons_of_ne_nil sep x ((y :: q2) ++ [[]]) (by simp),
        intercalate_cons_of_ne_nil sep x (y :: q2) (by simp),
        intercalate_append_nil sep (y :: q2) (by simp)]
    simp [List.append_assoc]

/-- If the parts, the replacement, and every part-replacement boundary are
free of `pat`, the rejoined string contains no `pat` at all. -/
theorem no_pat_in_intercalate (pat rep : List Char) (hpat : pat ≠ [])
    (hlen : pat.length ≤ rep.length)
    (hrep : strContains rep pat = false)
    (hc1 : ∀ n, n < pat.length → 0 < n → (pat.drop n).isPrefixOf rep = false)
    (hc2 : ∀ n, n < pat.length → 0 < n → (pat.take n).isSuffixOf rep = false) :
    ∀ (parts : List (List Char)), (∀ p ∈ parts, strContains p pat = false) →
      strContains (List.intercalate rep parts) pat = false := by
  intro parts
  induction parts with
  | nil =>
    intro _
    cases pat with
    | nil => exact absurd rfl hpat
    | cons d ds => simp [List.intercalate, List.intersperse, strContains]
  | cons p rest ih =>
    intro hparts
    cases rest with
    | nil =>
      have hp := hparts p (by simp)
      simpa [List.intercalate, List.intersperse] using hp
    | cons q rest2 =>
      rw [intercalate_cons_of_ne_nil rep p (q :: rest2) (by simp), List.append_assoc]
      have hI := ih (fun x hx => hparts x (List.mem_cons_of_mem p hx))
      have hp := hparts p (List.mem_cons_self p (q :: rest2))
      rcases Bool.eq_false_or_eq_true
          (strContains (p ++ (rep ++ List.intercalate rep (q :: rest2))) pat) with hb | hb
      case inr => exact hb
      exfalso
      rcases strContains_append_cases pat p (rep ++ List.intercalate rep (q :: rest2)) hb
        with h1 | h1 | ⟨n, hn0, hnl, hend2, hpre2⟩
      · rw [h1] at hp
        cases hp
      · rcases strContains_append_cases pat rep (List.intercalate rep (q :: rest2)) h1
          with h2 | h2 | ⟨n2, hn20, hn2l, hend3, hpre3⟩
        · rw [h2] at hrep
          cases hrep
        · rw [h2] at hI
          cases hI
        · have hq := hc2 n2 hn2l hn20
          unfold strEndsWith at hend3
          rw [hend3] at hq
          cases hq
      · have hpre4 : (pat.drop n).isPrefixOf rep = true := by
          apply isPrefixOf_append_left _ _ _ hpre2
          simp only [List.length_drop]
          omega
        have hq := hc1 n hnl hn0
        rw [hpre4] at hq
        cases hq

/-- C10: `tar_apps` substitutes `.tar.gz` for every occurrence of `.dmg` in
the derived path: the rewritten path never contains `.dmg` at all, and it
equals the `.dmg`-split parts of the raw derived path rejoined with
`.tar.gz`, whatever the number of occurrences.  Whenever the raw derived
path ends in `.dmg` — every disk-image record — the rewritten path ends in
`.tar.gz`, so `_get_tar_create_options` selects the gzip options `czf`: a
disk-image input is always published as a gzip tarball. -/
theorem tar_apps_target_path_dmg_replacement
    (artifact_dir pfx orig_path pre suf : List Char)
    (h1 : strSplitOn orig_path pfx = [pre, suf]) :
    strContains (tar_apps_target_path artifact_dir pfx orig_path) (".dmg".toList) = false ∧
    (∀ parts, strSplitOn (artifact_dir ++ '/' :: (pfx ++ suf)) (".dmg".toList) = parts →
      tar_apps_target_path artifact_dir pfx orig_path
        = List.intercalate (".tar.gz".toList) parts ∧
      artifact_dir ++ '/' :: (pfx ++ suf) = List.intercalate (".dmg".toList) parts) ∧
    (strEndsWith (artifact_dir ++ '/' :: (pfx ++ suf)) (".dmg".toList) = true →
      strEndsWith (tar_apps_target_path artifact_dir pfx orig_path) (".tar.gz".toList) = true ∧
      _get_tar_create_options (tar_apps_target_path artifact_dir pfx orig_path)
        = Except.ok ("czf".toList)) := by
  have hfmt : formatTargetPath artifact_dir pfx orig_path
      = artifact_dir ++ '/' :: (pfx ++ suf) := by
    unfold formatTargetPath
    rw [h1]
    rfl
  have htar : tar_apps_target_path artifact_dir pfx orig_path
      = List.intercalate (".tar.gz".toList)
          (strSplitOn (artifact_dir ++ '/' :: (pfx ++ suf)) (".dmg".toList)) := by
    unfold tar_apps_target_path
    rw [hfmt]
    unfold strReplace
    rw [if_neg (by decide)]
  refine ⟨?_, ?_, ?_⟩
  · rw [htar]
    exact no_pat_in_intercalate (".dmg".toList) (".tar.gz".toList)
      (by decide) (by decide) (by decide) (by decide) (by decide) _
      (strSplitOn_parts_no_pat (artifact_dir ++ '/' :: (pfx ++ suf)) (".dmg".toList) (by decide))
  · intro parts hsp
    subst hsp
    exact ⟨htar, (strSplitOn_recon (artifact_dir ++ '/' :: (pfx ++ suf))
      (".dmg".toList) (by decide)).symm⟩
  · intro hend
    have hne : strSplitOn (artifact_dir ++ '/' :: (pfx ++ suf)) (".dmg".toList) ≠ [] := by
      unfold strSplitOn
      rw [if_neg (by decide)]
      exact splitGo_ne_nil _ _ _ _
    have hlast : (strSplitOn (artifact_dir ++ '/' :: (pfx ++ suf))
        (".dmg".toList)).getLast? = some [] :=
      strSplitOn_getLast_nil _ _ (by decide) (by decide) hend
    have h2 := List.getLast?_eq_getLast
      (strSplitOn (artifact_dir ++ '/' :: (pfx ++ suf)) (".dmg".toList)) hne
    rw [hlast] at h2
    injection h2 with h3
    have hconcat := List.dropLast_concat_getLast hne
    rw [← h3] at hconcat
    have hdne : (strSplitOn (artifact_dir ++ '/' :: (pfx ++ suf))
        (".dmg".toList)).dropLast ≠ [] := by
      intro h0
      rw [h0, List.nil_append] at hconcat
      have hrec := strSplitOn_recon (artifact_dir ++ '/' :: (pfx ++ suf))
        (".dmg".toList) (by decide)
      rw [← hconcat] at hrec
      have hraw : ([] : List Char) = artifact_dir ++ '/' :: (pfx ++ suf) := by
        rw [← hrec]
        simp [List.intercalate, List.intersperse]
      rw [← hraw] at hend
      exact absurd hend (by decide)
    rw [← hconcat, intercalate_append_nil (".tar.gz".toList) _ hdne] at htar
    constructor
    · rw [htar]
      exact strEndsWith_append _ _
    · unfold _get_tar_create_options
      rw [htar, if_pos (strEndsWith_append _ _)]

/-- C10 witness: an ordinary record whose derived path ends in `.dmg` is
rewritten to a `.tar.gz` path with gzip options, and a path with `.dmg`
also inside a directory segment has every occurrence rewritten, leaving no
`.dmg` behind. -/
theorem tar_apps_target_path_dmg_replacement_witness :
    tar_apps_target_path ("A".toList) ("public/".toList)
        ("w/public/build/target.dmg".toList)
      = "A/public/build/target.tar.gz".toList ∧
    _get_tar_create_options (tar_apps_target_path ("A".toList) ("public/".toList)
        ("w/public/build/target.dmg".toList)) = Except.ok ("czf".toList) ∧
    tar_apps_target_path ("A".toList) ("public/".toList)
        ("w/public/my.dmg.d/t.dmg".toList)
      = "A/public/my.tar.gz.d/t.tar.gz".toList ∧
    strContains (tar_apps_target_path ("A".toList) ("public/".toList)
        ("w/public/my.dmg.d/t.dmg".toList)) (".dmg".toList) = false := by
  have h1 := tar_apps_target_path_dmg_replacement ("A".toList) ("public/".toList)
      ("w/public/build/target.dmg".toList) ("w/".toList) ("build/target.dmg".toList)
      (by decide)
  have h2 := tar_apps_target_path_dmg_replacement ("A".toList) ("public/".toList)
      ("w/public/my.dmg.d/t.dmg".toList) ("w/".toList) ("my.dmg.d/t.dmg".toList)
      (by decide)
  refine ⟨?_, (h1.2.2 (by decide)).2, ?_, h2.1⟩
  · exact ((h1.2.1 ["A/public/build/target".toList, []] (by decide)).1).trans (by decide)
  · exact ((h2.2.1 ["A/public/my".toList, ".d/t".toList, []] (by decide)).1).trans (by decide)

/-! ## Polling: get_notarization_status_from_log (lines 739-758) and
poll_notarization_uuid (lines 878-913).

The loop body is: run the status command (writing the log file), read the
status; `success` breaks, `invalid` raises, otherwise sleep `sleep_time`
seconds and raise a `TimeoutError` if the wall clock has passed
`start + timeout`.  We model time as advancing only at the sleeps (the
spec's suspension points), so after the `k`-th poll the clock reads
`(k+1) * sleep_time`; the poll at index `k` reads log contents `logs k`. -/

inductive NotStatus where
  | success
  | invalid
deriving DecidableEq

/-- `get_notarization_status_from_log` as a function of the log contents:
`re.search(r"Status: (success|invalid)")`, i.e. the leftmost occurrence of
`Status: success` or `Status: invalid`. -/
def get_notarization_status_from_log : List Char → Option NotStatus
  | [] => none
  | c :: cs =>
    if ("Status: success".toList).isPrefixOf (c :: cs) then some .success
    else if ("Status: invalid".toList).isPrefixOf (c :: cs) then some .invalid
    else get_notarization_status_from_log cs

inductive PollResult where
  /-- the loop broke out after this many polls -/
  | success (polls : Nat)
  /-- `InvalidNotarization` raised after this many polls -/
  | invalid (polls : Nat)
  /-- `TimeoutError` raised, at this (modelled) wall-clock time -/
  | timedOut (elapsed : Nat)
deriving DecidableEq

/-- The poll loop of `poll_notarization_uuid`, from poll index `k`. -/
def pollAux (logs : Nat → List Char) (timeout sleep_time : Nat)
    (hs : 0 < sleep_time) (k : Nat) : PollResult :=
  match get_notarization_status_from_log (logs k) with
  | some .success => .success (k + 1)
  | some .invalid => .invalid (k + 1)
  | none =>
    if h : timeout < (k + 1) * sleep_time then .timedOut ((k + 1) * sleep_time)
    else pollAux logs timeout sleep_time hs (k + 1)
termination_by timeout + 1 - k * sleep_time
decreasing_by
  have hle : (k + 1) * sleep_time ≤ timeout := Nat.not_lt.mp h
  have hsucc : (k + 1) * sleep_time = k * sleep_time + sleep_time := Nat.succ_mul k sleep_time
  omega

/-- `poll_notarization_uuid` (the uuid/credentials and the per-poll retry
wrapper are opaque; `logs k` is what the `k`-th status call leaves in the
log file). -/
def poll_notarization_uuid (logs : Nat → List Char) (timeout sleep_time : Nat)
    (hs : 0 < sleep_time) : PollResult :=
  pollAux logs timeout sleep_time hs 0

theorem pollAux_success (logs : Nat → List Char) (timeout sleep_time : Nat)
    (hs : 0 < sleep_time) :
    ∀ (n k : Nat),
      (∀ j, j < n → get_notarization_status_from_log (logs (k + j)) = none) →
      (∀ j, j < n → (k + j + 1) * sleep_time ≤ timeout) →
      get_notarization_status_from_log (logs (k + n)) = some .success →
      pollAux logs timeout sleep_time hs k = .success (k + n + 1) := by
  intro n
  induction n with
  | zero =>
    intro k _ _ hsucc
    unfold pollAux
    simp only [Nat.add_zero] at hsucc
    rw [hsucc]
  | succ n ih =>
    intro k hnone hdl hsucc
    unfold pollAux
    have h0 := hnone 0 (Nat.succ_pos n)
    rw [Nat.add_zero] at h0
    rw [h0]
    rw [dif_neg (Nat.not_lt.mpr (by simpa using hdl 0 (Nat.succ_pos n)))]
    have h1 : ∀ j, j < n → get_notarization_status_from_log (logs (k + 1 + j)) = none := by
      intro j hj
      have := hnone (j + 1) (by omega)
      simpa [Nat.add_assoc, Nat.add_comm 1 j] using this
    have h2 : ∀ j, j < n → (k + 1 + j + 1) * sleep_time ≤ timeout := by
      intro j hj
      have := hdl (j + 1) (by omega)
      simpa [Nat.add_assoc, Nat.add_comm 1 j] using this
    have h3 : get_notarization_status_from_log (logs (k + 1 + n)) = some .success := by
      have : k + 1 + n = k + (n + 1) := by omega
      rw [this]
      exact hsucc
    have harith : k + (n + 1) + 1 = k + 1 + n + 1 := by omega
    rw [harith]
    exact ih (k + 1) h1 h2 h3

theorem pollAux_invalid (logs : Nat → List Char) (timeout sleep_time : Nat)
    (hs : 0 < sleep_time) :
    ∀ (n k : Nat),
      (∀ j, j < n → get_notarization_status_from_log (logs (k + j)) = none) →
      (∀ j, j < n → (k + j + 1) * sleep_time ≤ timeout) →
      get_notarization_status_from_log (logs (k + n)) = some .invalid →
      pollAux logs timeout sleep_time hs k = .invalid (k + n + 1) := by
  intro n
  induction n with
  | zero =>
    intro k _ _ hinv
    unfold pollAux
    simp only [Nat.add_zero] at hinv
    rw [hinv]
  | succ n ih =>
    intro k hnone hdl hinv
    unfold pollAux
    have h0 := hnone 0 (Nat.succ_pos n)
    rw [Nat.add_zero] at h0
    rw [h0]
    rw [dif_neg (Nat.not_lt.mpr (by simpa using hdl 0 (Nat.succ_pos n)))]
    have h1 : ∀ j, j < n → get_notarization_status_from_log (logs (k + 1 + j)) = none := by
      intro j hj
      have := hnone (j + 1) (by omega)
      simpa [Nat.add_assoc, Nat.add_comm 1 j] using this
    have h2 : ∀ j, j < n → (k + 1 + j + 1) * sleep_time ≤ timeout := by
      intro j hj
      have := hdl (j + 1) (by omega)
      simpa [Nat.add_assoc, Nat.add_comm 1 j] using this
    have h3 : get_notarization_status_from_log (logs (k + 1 + n)) = some .invalid := by
      have : k + 1 + n = k + (n + 1) := by omega
      rw [this]
      exact hinv
    have harith : k + (n + 1) + 1 = k + 1 + n + 1 := by omega
    rw [harith]
    exact ih (k + 1) h1 h2 h3

theorem pollAux_timeout_aux (logs : Nat → List Char) (timeout sleep_time : Nat)
    (hs : 0 < sleep_time)
    (hnone : ∀ j, get_notarization_status_from_log (logs j) = none) :
    ∀ (m k : Nat), timeout + 1 - k * sleep_time ≤ m → k * sleep_time ≤ timeout →
      pollAux logs timeout sleep_time hs k
        = .timedOut ((timeout / sleep_time + 1) * sleep_time) := by
  intro m
  induction m with
  | zero =>
    intro k hm hkle
    omega
  | succ m ih =>
    intro k hm hkle
    unfold pollAux
    rw [hnone k]
    by_cases hlt : timeout < (k + 1) * sleep_time
    · rw [dif_pos hlt]
      have hq : k = timeout / sleep_time := by
        have h1 : k ≤ timeout / sleep_time := (Nat.le_div_iff_mul_le hs).mpr hkle
        have h2 : timeout / sleep_time < k + 1 := by
          by_contra hcon
          push_neg at hcon
          have := (Nat.le_div_iff_mul_le hs).mp hcon
          omega
        omega
      rw [hq]
    · rw [dif_neg hlt]
      have hle : (k + 1) * sleep_time ≤ timeout := Nat.not_lt.mp hlt
      have hstep : (k + 1) * sleep_time = k * sleep_time + sleep_time :=
        Nat.succ_mul k sleep_time
      exact ih (k + 1) (by omega) hle

theorem pollAux_timeout (logs : Nat → List Char) (timeout sleep_time : Nat)
    (hs : 0 < sleep_time)
    (hnone : ∀ j, get_notarization_status_from_log (logs j) = none) :
    ∀ (k : Nat), k * sleep_time ≤ timeout →
      pollAux logs timeout sleep_time hs k
        = .timedOut ((timeout / sleep_time + 1) * sleep_time) := by
  intro k hkle
  exact pollAux_timeout_aux logs timeout sleep_time hs hnone
    (timeout + 1 - k * sleep_time) k le_rfl hkle

/-- C2: if the `n`-th status log (0-indexed) reads `Status: success`, every
earlier log has no terminal status and the deadline does not pass before the
`n`-th poll, the loop returns success after exactly `n + 1` polls, the polls
being one `sleep_time` apart by construction of the time model; an
`invalid` log raises `InvalidNotarization` instead; and a run whose logs
never show a terminal status raises `TimeoutError` at the first
poll-interval boundary past the deadline — strictly after `timeout`, at
most one `sleep_time` past it, never before. -/
theorem poll_notarization_uuid_spec (logs : Nat → List Char)
    (timeout sleep_time : Nat) (hs : 0 < sleep_time) :
    (∀ n, (∀ j, j < n → get_notarization_status_from_log (logs j) = none) →
      (∀ j, j < n → (j + 1) * sleep_time ≤ timeout) →
      get_notarization_status_from_log (logs n) = some .success →
      poll_notarization_uuid logs timeout sleep_time hs = .success (n + 1)) ∧
    (∀ n, (∀ j, j < n → get_notarization_status_from_log (logs j) = none) →
      (∀ j, j < n → (j + 1) * sleep_time ≤ timeout) →
      get_notarization_status_from_log (logs n) = some .invalid →
      poll_notarization_uuid logs timeout sleep_time hs = .invalid (n + 1)) ∧
    ((∀ j, get_notarization_status_from_log (logs j) = none) →
      poll_notarization_uuid logs timeout sleep_time hs
        = .timedOut ((timeout / sleep_time + 1) * sleep_time) ∧
      timeout < (timeout / sleep_time + 1) * sleep_time ∧
      (timeout / sleep_time + 1) * sleep_time ≤ timeout + sleep_time) := by
  refine ⟨?_, ?_, ?_⟩
  · intro n hnone hdl hsucc
    unfold poll_notarization_uuid
    simpa using pollAux_success logs timeout sleep_time hs n 0
      (by simpa using hnone) (by simpa using hdl) (by simpa using hsucc)
  · intro n hnone hdl hinv
    unfold poll_notarization_uuid
    simpa using pollAux_invalid logs timeout sleep_time hs n 0
      (by simpa using hnone) (by simpa using hdl) (by simpa using hinv)
  · intro hnone
    refine ⟨?_, ?_, ?_⟩
    · unfold poll_notarization_uuid
      exact pollAux_timeout logs timeout sleep_time hs hnone 0 (by simp)
    · have hdm : timeout / sleep_time * sleep_time + timeout % sleep_time = timeout :=
        Nat.div_add_mod' timeout sleep_time
      have hm : timeout % sleep_time < sleep_time := Nat.mod_lt _ hs
      have hd : (timeout / sleep_time + 1) * sleep_time
          = timeout / sleep_time * sleep_time + sleep_time := Nat.succ_mul _ _
      omega
    · have h1 : timeout / sleep_time * sleep_time ≤ timeout := Nat.div_mul_le_self _ _
      have hd : (timeout / sleep_time + 1) * sleep_time
          = timeout / sleep_time * sleep_time + sleep_time := Nat.succ_mul _ _
      omega

/-- C2 witness: success appears on the second poll (one empty log first),
well before the deadline: exactly two polls happen. -/
theorem poll_notarization_uuid_spec_witness :
    poll_notarization_uuid
        (fun k => if k = 0 then [] else "Status: success".toList) 100 15 (by norm_num)
      = .success 2 := by
  exact (poll_notarization_uuid_spec _ 100 15 (by norm_num)).1 1
    (by decide) (by decide) (by decide)

/-! ## wrap_notarization_with_sudo (lines 762-837)

The submission loop: `while counter < len(all_paths)`, an inner
`for account in accounts` loop that submits `all_paths[counter]` with that
account, increments `counter` and breaks when it reaches the end; the wave's
futures are awaited (`raise_future_exceptions`) before the next wave starts.
We model the schedule it produces: a list of waves, each wave a list of
(record index, account) pairs submitted concurrently. -/

/-- One pass of the inner `for account in accounts` loop starting at record
index `counter` (precondition of every call: `counter < m`). -/
def subWave {α : Type} (m : Nat) : Nat → List α → List (Nat × α)
  | _, [] => []
  | counter, a :: rest =>
    (counter, a) :: (if counter + 1 ≥ m then [] else subWave m (counter + 1) rest)

/-- The outer `while counter < len(all_paths)` loop, from `counter`. -/
def sudoGo {α : Type} (m : Nat) (accounts : List α) (hacc : accounts ≠ [])
    (counter : Nat) : List (List (Nat × α)) :=
  if h : counter < m then
    subWave m counter accounts :: sudoGo m accounts hacc (counter + (subWave m counter accounts).length)
  else []
termination_by m - counter
decreasing_by
  have hpos : 0 < (subWave m counter accounts).length := by
    cases accounts with
    | nil => exact absurd rfl hacc
    | cons a rest => simp [subWave]
  omega

/-- The submission schedule of `wrap_notarization_with_sudo` for `m` records
and the configured account pool (an empty pool would make the source loop
forever, hence the hypothesis). -/
def wrap_notarization_with_sudo {α : Type} (m : Nat) (accounts : List α)
    (hacc : accounts ≠ []) : List (List (Nat × α)) :=
  sudoGo m accounts hacc 0

theorem subWave_map_fst {α : Type} (m : Nat) :
    ∀ (accounts : List α) (counter : Nat), counter < m →
      (subWave m counter accounts).map Prod.fst
        = List.range' counter (min accounts.length (m - counter)) := by
  intro accounts
  induction accounts with
  | nil => intro counter _; simp [subWave]
  | cons a rest ih =>
    intro counter hc
    unfold subWave
    by_cases hend : counter + 1 ≥ m
    · have h1 : min (rest.length + 1) (m - counter) = 1 := by omega
      simp only [List.length_cons, h1, if_pos hend]
      simp [List.range']
    · push_neg at hend
      have hmin : min (rest.length + 1) (m - counter)
          = min rest.length (m - (counter + 1)) + 1 := by omega
      simp only [List.length_cons, hmin, if_neg (by omega : ¬ counter + 1 ≥ m)]
      rw [List.range'_succ]
      simp only [List.map_cons]
      rw [ih (counter + 1) hend]

theorem subWave_length {α : Type} (m : Nat) (accounts : List α) (counter : Nat)
    (hc : counter < m) :
    (subWave m counter accounts).length = min accounts.length (m - counter) := by
  have := subWave_map_fst m accounts counter hc
  have hlen := congrArg List.length this
  simpa using hlen

theorem subWave_mem {α : Type} (m : Nat) :
    ∀ (accounts : List α) (counter : Nat), ∀ p ∈ subWave m counter accounts,
      ∃ i, i < accounts.length ∧ p.1 = counter + i ∧ accounts.get? i = some p.2 := by
  intro accounts
  induction accounts with
  | nil => intro counter p hp; simp [subWave] at hp
  | cons a rest ih =>
    intro counter p hp
    unfold subWave at hp
    rcases List.mem_cons.mp hp with rfl | hp'
    · exact ⟨0, by simp, by simp, by simp⟩
    · by_cases hend : counter + 1 ≥ m
      · rw [if_pos hend] at hp'
        cases hp'
      · rw [if_neg hend] at hp'
        obtain ⟨i, hi, hfst, hsnd⟩ := ih (counter + 1) p hp'
        exact ⟨i + 1, by simpa using hi, by omega, by simpa using hsnd⟩

theorem subWave_map_snd {α : Type} (m : Nat) :
    ∀ (accounts : List α) (counter : Nat),
      (subWave m counter accounts).map Prod.snd <+: accounts := by
  intro accounts
  induction accounts with
  | nil => intro counter; simp [subWave]
  | cons a rest ih =>
    intro counter
    unfold subWave
    by_cases hend : counter + 1 ≥ m
    · rw [if_pos hend]
      simp
    · rw [if_neg hend]
      simp only [List.map_cons]
      obtain ⟨t, ht⟩ := ih (counter + 1)
      exact ⟨t, by simp only [List.cons_append, ht]⟩

theorem sudoGo_join_fst {α : Type} (m : Nat) (accounts : List α) (hacc : accounts ≠ []) :
    ∀ (fuel counter : Nat), m - counter ≤ fuel →
      ((sudoGo m accounts hacc counter).join.map Prod.fst)
        = List.range' counter (m - counter) := by
  intro fuel
  induction fuel with
  | zero =>
    intro counter hf
    have h : ¬ counter < m := by omega
    unfold sudoGo
    rw [dif_neg h]
    have h0 : m - counter = 0 := by omega
    simp [h0]
  | succ fuel ih =>
    intro counter hf
    unfold sudoGo
    by_cases h : counter < m
    · rw [dif_pos h]
      have hlen := subWave_length m accounts counter h
      have hpos : 0 < accounts.length := by
        cases accounts with
        | nil => exact absurd rfl hacc
        | cons _ _ => simp
      have hwpos : 0 < (subWave m counter accounts).length := by omega
      have hrec := ih (counter + (subWave m counter accounts).length) (by omega)
      simp only [List.join_cons, List.map_append, hrec]
      rw [subWave_map_fst m accounts counter h]
      rw [← hlen]
      rw [List.range'_append_1]
      congr 1
      omega
    · rw [dif_neg h]
      have h0 : m - counter = 0 := by omega
      simp [h0]

theorem sudoGo_account {α : Type} (m : Nat) (accounts : List α) (hacc : accounts ≠ []) :
    ∀ (fuel counter : Nat), m - counter ≤ fuel → counter % accounts.length = 0 →
      ∀ w ∈ sudoGo m accounts hacc counter, ∀ p ∈ w,
        accounts.get? (p.1 % accounts.length) = some p.2 := by
  intro fuel
  induction fuel with
  | zero =>
    intro counter hf _ w hw
    have h : ¬ counter < m := by omega
    unfold sudoGo at hw
    rw [dif_neg h] at hw
    cases hw
  | succ fuel ih =>
    intro counter hf hmod w hw p hp
    have hN : 0 < accounts.length := by
      cases accounts with
      | nil => exact absurd rfl hacc
      | cons _ _ => simp
    unfold sudoGo at hw
    by_cases h : counter < m
    · rw [dif_pos h] at hw
      rcases List.mem_cons.mp hw with rfl | hw'
      · obtain ⟨i, hi, hfst, hsnd⟩ := subWave_mem m accounts counter p hp
        have hpm : p.1 % accounts.length = i := by
          rw [hfst]
          rw [Nat.add_mod, hmod]
          simp [Nat.mod_eq_of_lt hi]
        rw [hpm]
        exact hsnd
      · have hlen := subWave_length m accounts counter h
        by_cases hcont : counter + (subWave m counter accounts).length < m
        · have hfull : (subWave m counter accounts).length = accounts.length := by
            omega
          have hmod' : (counter + (subWave m counter accounts).length)
              % accounts.length = 0 := by
            rw [hfull, Nat.add_mod, hmod]
            simp
          exact ih (counter + (subWave m counter accounts).length) (by omega) hmod' w hw' p hp
        · unfold sudoGo at hw'
          rw [dif_neg hcont] at hw'
          cases hw'
    · rw [dif_neg h] at hw
      cases hw

theorem sudoGo_wave_snd {α : Type} (m : Nat) (accounts : List α) (hacc : accounts ≠ []) :
    ∀ (fuel counter : Nat), m - counter ≤ fuel →
      ∀ w ∈ sudoGo m accounts hacc counter, (w.map Prod.snd) <+: accounts := by
  intro fuel
  induction fuel with
  | zero =>
    intro counter hf w hw
    have h : ¬ counter < m := by omega
    unfold sudoGo at hw
    rw [dif_neg h] at hw
    cases hw
  | succ fuel ih =>
    intro counter hf w hw
    unfold sudoGo at hw
    by_cases h : counter < m
    · rw [dif_pos h] at hw
      rcases List.mem_cons.mp hw with rfl | hw'
      · exact subWave_map_snd m accounts counter
      · have hlen := subWave_length m accounts counter h
        have hpos : 0 < accounts.length := by
          cases accounts with
          | nil => exact absurd rfl hacc
          | cons _ _ => simp
        exact ih (counter + (subWave m counter accounts).length) (by omega) w hw'
    · rw [dif_neg h] at hw
      cases hw

/-- C3: the multi-account sudo submission schedule for `m` records over a
non-empty account pool: (i) each record index 0..m-1 is submitted exactly
once, waves in order (the flattened schedule is exactly `range m`, and the
loop awaits every submission of a wave before the next wave starts, by
construction of the wave list); (ii) record `k` is submitted with account
`k mod N`; (iii) within one wave the accounts used are a prefix of the pool,
so for a duplicate-free pool no account appears twice in one wave — no
account has two submissions in flight. -/
theorem wrap_notarization_with_sudo_round_robin {α : Type} (m : Nat)
    (accounts : List α) (hacc : accounts ≠ []) :
    ((wrap_notarization_with_sudo m accounts hacc).join.map Prod.fst = List.range m) ∧
    (∀ w ∈ wrap_notarization_with_sudo m accounts hacc, ∀ p ∈ w,
      accounts.get? (p.1 % accounts.length) = some p.2) ∧
    (∀ w ∈ wrap_notarization_with_sudo m accounts hacc,
      (w.map Prod.snd) <+: accounts ∧
      (accounts.Nodup → (w.map Prod.snd).Nodup)) := by
  refine ⟨?_, ?_, ?_⟩
  · unfold wrap_notarization_with_sudo
    rw [sudoGo_join_fst m accounts hacc m 0 (by omega)]
    rw [Nat.sub_zero, List.range_eq_range']
  · intro w hw p hp
    exact sudoGo_account m accounts hacc m 0 (by omega) (by simp) w hw p hp
  · intro w hw
    have hpre := sudoGo_wave_snd m accounts hacc m 0 (by omega) w hw
    exact ⟨hpre, fun hnd => hnd.sublist hpre.sublist⟩

/-- C3 witness: five records over a pool of two accounts: records 0..4 each
submitted once, record k with account k mod 2. -/
theorem wrap_notarization_with_sudo_round_robin_witness :
    (wrap_notarization_with_sudo 5 [10, 20] (by simp)).join.map Prod.fst
      = List.range 5 := by
  exact (wrap_notarization_with_sudo_round_robin 5 [10, 20] (by simp)).1

/-! ## extract_all_apps (lines 438-477)

The scheduling loop classifies each record by suffix and creates a future
per extractable record; an unknown suffix raises `IScriptError` right there,
inside the loop, before any future has been awaited.  Only when the loop
finishes are the futures awaited (`raise_future_exceptions`).  After that, a
leaked loop variable (`app` = the last record) decides whether the
Applications-folder symlink (`rm(os.path.join(app.parent_dir, " "))`) is
removed — for every record or for none. -/

/-- An `App` with only the fields the extraction stage reads. -/
def mkApp (o : String) (fmts : List String) : App :=
  ⟨o, "", "", "", "", "", "", "", "", "", fmts, ""⟩

inductive ExtractKind where
  | tarball
  | diskimage
deriving DecidableEq

/-- The suffix classification of the scheduling loop:
`endswith((".tar.bz2", ".tar.gz", ".tgz"))` then `endswith(".dmg")`. -/
def classify_extract (p : String) : Option ExtractKind :=
  if strEndsWith p.toList (".tar.bz2".toList) || strEndsWith p.toList (".tar.gz".toList)
      || strEndsWith p.toList (".tgz".toList) then some .tarball
  else if strEndsWith p.toList (".dmg".toList) then some .diskimage
  else none

/-- The scheduling loop of `extract_all_apps`: entitlements records are
skipped (the counter still advances), each other record is classified and a
future created; an unknown suffix raises immediately, with the error
carrying the path.  Returns the futures created (record index, kind). -/
def schedule_extractions : List App → Nat → Except String (List (Nat × ExtractKind))
  | [], _ => .ok []
  | app :: rest, counter =>
    if "macapp_entitlements" ∈ app.formats then schedule_extractions rest (counter + 1)
    else
      match classify_extract app.orig_path with
      | some k => (schedule_extractions rest (counter + 1)).map (fun l => (counter, k) :: l)
      | none => .error app.orig_path

inductive ExtractError where
  /-- `IScriptError(f"unknown file type {path}")` raised during scheduling. -/
  | unknownFileType (path : String)
  /-- the stage-level failure aggregating every failed unit -/
  | aggregated (failed : List Nat)
deriving DecidableEq

/-- Modelled from the spec: `raise_future_exceptions`
(scriptworker_client.aio, not under src/) awaits every future to completion
and then raises an error aggregating all failures, if any; `outcome i` is
whether record `i`'s extraction process succeeded. -/
def raise_future_exceptions (attempted : List Nat) (outcome : Nat → Bool) :
    Except (List Nat) Unit :=
  let failed := attempted.filter (fun i => !(outcome i))
  if failed.isEmpty then .ok () else .error failed

/-- `extract_all_apps`: first component is the list of record indices whose
extraction was awaited (run to completion) before the stage reported; second
the stage outcome.  When scheduling raises on an unknown suffix no future is
ever awaited, so the first component is empty. -/
def extract_all_apps (all_paths : List App) (outcome : Nat → Bool) :
    List Nat × Except ExtractError Unit :=
  match schedule_extractions all_paths 0 with
  | .error p => ([], .error (.unknownFileType p))
  | .ok jobs =>
    match raise_future_exceptions (jobs.map Prod.fst) outcome with
    | .ok () => (jobs.map Prod.fst, .ok ())
    | .error failed => (jobs.map Prod.fst, .error (.aggregated failed))

/-- C4 counterexample: a batch of a valid tarball record followed by a
record with an unrecognized suffix: the stage reports the
unsupported-artifact-type failure with no sibling extraction awaited at all
(first component empty), although record 0 was extractable. -/
theorem extract_all_apps_counterexample :
    extract_all_apps [mkApp "a.tar.gz" [], mkApp "b.xyz" []] (fun _ => true)
      = ([], .error (.unknownFileType "b.xyz")) ∧
    classify_extract "a.tar.gz" = some .tarball := by
  constructor
  · rfl
  · rfl

theorem schedule_extractions_ok (outcome : Nat → Bool) :
    ∀ (all_paths : List App) (counter : Nat),
      (∀ app ∈ all_paths, "macapp_entitlements" ∉ app.formats →
        classify_extract app.orig_path ≠ none) →
      ∃ jobs, schedule_extractions all_paths counter = .ok jobs := by
  intro all_paths
  induction all_paths with
  | nil => intro counter _; exact ⟨[], rfl⟩
  | cons app rest ih =>
    intro counter hall
    unfold schedule_extractions
    by_cases hent : "macapp_entitlements" ∈ app.formats
    · rw [if_pos hent]
      exact ih (counter + 1) (fun a ha => hall a (List.mem_cons_of_mem _ ha))
    · rw [if_neg hent]
      have hcl := hall app (List.mem_cons_self _ _) hent
      obtain ⟨jobs, hjobs⟩ := ih (counter + 1) (fun a ha => hall a (List.mem_cons_of_mem _ ha))
      cases hk : classify_extract app.orig_path with
      | none => exact absurd hk hcl
      | some k =>
        rw [hjobs]
        exact ⟨(counter, k) :: jobs, rfl⟩

theorem schedule_extractions_unknown :
    ∀ (all_paths : List App) (counter : Nat),
      (∃ app ∈ all_paths, "macapp_entitlements" ∉ app.formats ∧
        classify_extract app.orig_path = none) →
      ∃ p, schedule_extractions all_paths counter = .error p := by
  intro all_paths
  induction all_paths with
  | nil => rintro counter ⟨app, hmem, _⟩; cases hmem
  | cons app rest ih =>
    rintro counter ⟨a, hmem, hent, hcl⟩
    unfold schedule_extractions
    rcases List.mem_cons.mp hmem with rfl | hmem'
    · rw [if_neg hent, hcl]
      exact ⟨a.orig_path, rfl⟩
    · by_cases hent0 : "macapp_entitlements" ∈ app.formats
      · rw [if_pos hent0]
        exact ih (counter + 1) ⟨a, hmem', hent, hcl⟩
      · rw [if_neg hent0]
        cases hk : classify_extract app.orig_path with
        | none => exact ⟨app.orig_path, rfl⟩
        | some k =>
          obtain ⟨p, hp⟩ := ih (counter + 1) ⟨a, hmem', hent, hcl⟩
          rw [hp]
          exact ⟨p, rfl⟩

/-- C4 (amended): when every non-entitlements record in the batch has a
recognized suffix, every scheduled extraction is awaited to completion
before the stage reports, the stage succeeds iff every one of them
succeeded, and on failure the reported error aggregates exactly the failing
record indices.  But a record with an unrecognized suffix makes the
scheduling loop raise the unsupported-artifact-type error immediately: the
stage reports failure with no sibling extraction awaited at all. -/
theorem extract_all_apps_amended (all_paths : List App) (outcome : Nat → Bool) :
    ((∀ app ∈ all_paths, "macapp_entitlements" ∉ app.formats →
        classify_extract app.orig_path ≠ none) →
      ∃ jobs, schedule_extractions all_paths 0 = .ok jobs ∧
        (extract_all_apps all_paths outcome).1 = jobs.map Prod.fst ∧
        ((extract_all_apps all_paths outcome).2 = .ok () ↔
          ∀ i ∈ jobs.map Prod.fst, outcome i = true) ∧
        (((jobs.map Prod.fst).filter (fun i => !(outcome i))) ≠ [] →
          (extract_all_apps all_paths outcome).2
            = .error (.aggregated ((jobs.map Prod.fst).filter (fun i => !(outcome i)))))) ∧
    ((∃ app ∈ all_paths, "macapp_entitlements" ∉ app.formats ∧
        classify_extract app.orig_path = none) →
      (extract_all_apps all_paths outcome).1 = [] ∧
      ∃ p, (extract_all_apps all_paths outcome).2 = .error (.unknownFileType p)) := by
  constructor
  · intro hall
    obtain ⟨jobs, hjobs⟩ := schedule_extractions_ok outcome all_paths 0 hall
    have hmain : extract_all_apps all_paths outcome
        = (jobs.map Prod.fst,
            if ((jobs.map Prod.fst).filter (fun i => !(outcome i))).isEmpty
            then Except.ok ()
            else Except.error
              (.aggregated ((jobs.map Prod.fst).filter (fun i => !(outcome i))))) := by
      unfold extract_all_apps raise_future_exceptions
      rw [hjobs]
      by_cases hfail : ((jobs.map Prod.fst).filter (fun i => !(outcome i))).isEmpty
      · simp [hfail]
      · simp [hfail]
    refine ⟨jobs, hjobs, ?_, ?_, ?_⟩
    · rw [hmain]
    · rw [hmain]
      by_cases hfail : ((jobs.map Prod.fst).filter (fun i => !(outcome i))).isEmpty
      · simp only [hfail, if_true]
        simp only [true_iff, iff_true]
        intro i hi
        have := List.filter_eq_nil.mp (List.isEmpty_iff.mp hfail) i hi
        simpa using this
      · simp only [hfail, if_false, Bool.not_eq_true]
        constructor
        · intro h
          simp at h
        · intro hallok
          exact absurd (by
            rw [List.isEmpty_iff, List.filter_eq_nil]
            intro i hi
            simpa using hallok i hi) hfail
    · intro hne
      rw [hmain]
      rw [if_neg (by simpa [List.isEmpty_iff] using hne)]
  · intro hex
    obtain ⟨p, hp⟩ := schedule_extractions_unknown all_paths 0 hex
    unfold extract_all_apps
    rw [hp]
    exact ⟨rfl, p, rfl⟩

/-- C4 witness: a batch of two recognized records where record 1's
extraction fails: both are awaited and the aggregated error names record 1. -/
theorem extract_all_apps_amended_witness :
    ∃ jobs, schedule_extractions [mkApp "a.tar.gz" [], mkApp "b.dmg" []] 0 = .ok jobs ∧
      (extract_all_apps [mkApp "a.tar.gz" [], mkApp "b.dmg" []]
          (fun i => decide (i = 0))).1 = jobs.map Prod.fst ∧
      ((extract_all_apps [mkApp "a.tar.gz" [], mkApp "b.dmg" []]
          (fun i => decide (i = 0))).2 = .ok () ↔
        ∀ i ∈ jobs.map Prod.fst, (fun i => decide (i = 0)) i = true) ∧
      (((jobs.map Prod.fst).filter (fun i => !((fun i => decide (i = 0)) i))) ≠ [] →
        (extract_all_apps [mkApp "a.tar.gz" [], mkApp "b.dmg" []]
            (fun i => decide (i = 0))).2
          = .error (.aggregated
              ((jobs.map Prod.fst).filter (fun i => !((fun i => decide (i = 0)) i))))) := by
  exact (extract_all_apps_amended [mkApp "a.tar.gz" [], mkApp "b.dmg" []]
    (fun i => decide (i = 0))).1 (by decide)

/-! ## The dmg symlink cleanup (lines 474-477) -/

/-- Lines 474-477 of `extract_all_apps`: after the futures are awaited, the
code checks `app.orig_path.endswith(".dmg")` on the loop variable leaked
from the scheduling loop — the *last* record of `all_paths` — and, when it
matches, removes the Applications-folder symlink for *every* record.
Returns the indices whose working directory gets the cleanup.  (On an empty
batch the source would hit an unbound variable; the workflows never pass
one.) -/
def dmg_cleanup_records (all_paths : List App) : List Nat :=
  match all_paths.getLast? with
  | none => []
  | some lastApp =>
    if strEndsWith lastApp.orig_path.toList (".dmg".toList) then
      List.range all_paths.length
    else []

/-- C6 (code bug, kept by the spec as the intended behavior): the claim asks
that each disk-image record's own symlink be removed based on its own
suffix.  The code keys the whole cleanup on the last record: a `.dmg`
record followed by a tarball record gets no cleanup at all, while a batch
ending in `.dmg` cleans every record, tarballs included. -/
theorem extract_all_apps_dmg_cleanup_bug :
    dmg_cleanup_records [mkApp "a.dmg" [], mkApp "b.tar.gz" []] = [] ∧
    strEndsWith (mkApp "a.dmg" []).orig_path.toList (".dmg".toList) = true ∧
    dmg_cleanup_records [mkApp "b.tar.gz" [], mkApp "a.dmg" []] = [0, 1] := by
  refine ⟨rfl, rfl, ?_⟩
  decide

/-! ## sign_app (lines 202-298): the recursive flat-strategy bundle signer

The bundle is a directory tree.  `sign_app` walks `<app>/Contents` top-down
(`os.walk`): at the root tuple it prunes `dirs` to `SIGN_DIRS` — with the
source's remove-during-iteration quirk, where removing the current entry
makes the iterator skip the next one, so a skipped entry stays in `dirs`
and is descended into — and skips the root's files; at every other tuple it
recurses `sign_app` into each directory named `*.app` (nothing stops the
walk from also descending into an already-signed nested app and recursing
again on apps nested deeper inside it), signs each file individually unless
the directory lies inside a nested app (the path-slice `.count(".app")`
check) or the file bears the principal executable's name, and then descends
into each subdirectory.  After the walk `sign_libclearkey` signs the
special-cased library (top level app only), and finally the bundle itself is
signed.

We record the signing calls as a trace of `SignEvent`s, with paths as
component lists.  `execOf` stands for `get_bundle_executable` (reading
`Contents/Info.plist` is an external effect): the `CFBundleExecutable` of
the app directory at a given absolute path.  Directory listings carry
unique names, as on a real filesystem. -/

inductive FSTree where
  | file (nm : String)
  | dir (nm : String) (children : List FSTree)

def nameOf : FSTree → String
  | .file nm => nm
  | .dir nm _ => nm

def childrenOf : FSTree → List FSTree
  | .file _ => []
  | .dir _ ch => ch

def isDirB : FSTree → Bool
  | .file _ => false
  | .dir _ _ => true

def isContentsDir : FSTree → Bool
  | .dir nm _ => nm == "Contents"
  | .file _ => false

/-- The `dirs` component of an `os.walk` tuple (listing order). -/
def dirNames (children : List FSTree) : List String :=
  (children.filter isDirB).map nameOf

/-- The `files` component of an `os.walk` tuple (listing order). -/
def fileNames (children : List FSTree) : List String :=
  children.filterMap (fun t => match t with | .file nm => some nm | .dir _ _ => none)

def SIGN_DIRS : List String := ["MacOS", "Library"]

/-- The root-tuple loop `for dir_ in dirs: if dir_ not in SIGN_DIRS:
dirs.remove(dir_)`, with Python's iteration-index semantics: `remove`
shifts the list left so the iterator skips the entry after a removed one.
Returns the mutated `dirs` list, which `os.walk` then descends into.  (The
loop visits only entries in `SIGN_DIRS` — which never end in `.app`, so its
`sign_app` branch never fires at the root.) -/
def pruneRoot (dirs : List String) (i : Nat) : List String :=
  if h : i < dirs.length then
    if dirs.get ⟨i, h⟩ ∈ SIGN_DIRS then pruneRoot dirs (i + 1)
    else pruneRoot (dirs.erase (dirs.get ⟨i, h⟩)) (i + 1)
  else dirs
termination_by dirs.length - i
decreasing_by
  · omega
  · have hmem : dirs.get ⟨i, h⟩ ∈ dirs := dirs.get_mem _ _
    have := List.length_erase_of_mem hmem
    omega

def strContainsS (s pat : String) : Bool := strContains s.toList pat.toList

def strEndsWithS (s pat : String) : Bool := strEndsWith s.toList pat.toList

/-- First child of a given name (unique on a filesystem). -/
def findChild (children : List FSTree) (nm : String) : Option FSTree :=
  children.find? (fun t => nameOf t == nm)

/-- `os.path.exists` for a file below a directory's children. -/
def hasFileAt : List FSTree → List String → String → Bool
  | ch, [], f => ch.any (fun t => match t with | .file nm => nm == f | .dir _ _ => false)
  | ch, d :: ds, f =>
    match findChild ch d with
    | some (.dir _ cc) => hasFileAt cc ds f
    | _ => false

inductive SignEvent where
  /-- an individual per-file `codesign` invocation -/
  | signFile (path : List String)
  /-- the whole-bundle `codesign` invocation for the app at `path` -/
  | signBundle (path : List String)
deriving DecidableEq

def pathJoin (ap : List String) : String := String.intercalate "/" ap

/-- `sign_libclearkey`: only when `"Contents/" not in app_path`, and only if
`Contents/Resources/gmp-clearkey/0.1/libclearkey.dylib` exists. -/
def clearkeyEvents (ap : List String) (children : List FSTree) : List SignEvent :=
  if strContainsS (pathJoin ap) "Contents/" then []
  else if hasFileAt children ["Contents", "Resources", "gmp-clearkey", "0.1"]
      "libclearkey.dylib" then
    [.signFile (ap ++ ["Contents", "Resources", "gmp-clearkey", "0.1", "libclearkey.dylib"])]
  else []

/-- The three walk positions of the trace semantics: signing an app rooted
under `parentDir`; handling the root `os.walk` tuple of the app at `ap`
with principal executable `ex`; handling a non-root tuple at relative path
`rel` below `ap`. -/
inductive WalkMode where
  | app (parentDir : List String)
  | contents (ap : List String) (ex : String)
  | dirWalk (ap : List String) (ex : String) (rel : List String)

/-- The signing trace of `sign_app` (mode `.app`) and of the `os.walk` loop
body at each directory (modes `.contents`, `.dirWalk`), in call order:
nested-app recursions from the `dirs` loop, then the per-file signings of
the `files` loop (skipping files inside nested apps and the principal
executable's name), then the walk of each subdirectory; for the whole app,
the walk of `Contents`, then `sign_libclearkey`, then the whole-bundle
signature — always last. -/
def signWalk (execOf : List String → String) : WalkMode → FSTree → List SignEvent
  | .app _, .file _ => []
  | .app parentDir, .dir nm children =>
    ((children.attach.filter (fun c => isContentsDir c.1)).map
      (fun c => signWalk execOf
        (.contents (parentDir ++ [nm]) (execOf (parentDir ++ [nm]))) c.1)).join
    ++ clearkeyEvents (parentDir ++ [nm]) children
    ++ [.signBundle (parentDir ++ [nm])]
  | .contents _ _, .file _ => []
  | .contents ap ex, .dir _ children =>
    ((children.attach.filter
        (fun c => isDirB c.1 && decide (nameOf c.1 ∈ pruneRoot (dirNames children) 0))).map
      (fun c => signWalk execOf (.dirWalk ap ex ["Contents", nameOf c.1]) c.1)).join
  | .dirWalk _ _ _, .file _ => []
  | .dirWalk ap ex rel, .dir _ children =>
    ((children.attach.filter (fun c => isDirB c.1 && strEndsWithS (nameOf c.1) ".app")).map
      (fun c => signWalk execOf (.app (ap ++ rel)) c.1)).join
    ++ (if rel.any (fun comp => strContainsS comp ".app") then []
        else (fileNames children).filterMap
          (fun f => if f = ex then none else some (.signFile (ap ++ rel ++ [f]))))
    ++ ((children.attach.filter (fun c => isDirB c.1)).map
      (fun c => signWalk execOf (.dirWalk ap ex (rel ++ [nameOf c.1])) c.1)).join
termination_by _ t => sizeOf t
decreasing_by
  all_goals
    have hlt := List.sizeOf_lt_of_mem c.2
    simp only [FSTree.dir.sizeOf_spec]
    omega

/-- `sign_app`, as the trace of signing calls it performs. -/
def sign_app (execOf : List String → String) (parentDir : List String)
    (t : FSTree) : List SignEvent :=
  signWalk execOf (.app parentDir) t

theorem clearkeyEvents_mem (ap : List String) (children : List FSTree) (e : SignEvent)
    (he : e ∈ clearkeyEvents ap children) :
    e = .signFile (ap ++ ["Contents", "Resources", "gmp-clearkey", "0.1", "libclearkey.dylib"]) := by
  unfold clearkeyEvents at he
  split at he
  · cases he
  · split at he
    · simpa using he
    · cases he

/-- Lower bound on the path length of an individual-file signing event
produced at each walk position. -/
def fileLenBound : WalkMode → Nat
  | .app parentDir => parentDir.length + 4
  | .contents ap _ => ap.length + 3
  | .dirWalk ap _ rel => ap.length + rel.length + 1

/-- Lower bound on the path length of a whole-bundle signing event produced
at each walk position. -/
def bundleLenBound : WalkMode → Nat
  | .app parentDir => parentDir.length + 1
  | .contents ap _ => ap.length + 3
  | .dirWalk ap _ rel => ap.length + rel.length + 1

theorem signWalk_signFile_length (execOf : List String → String) :
    ∀ (md : WalkMode) (t : FSTree), ∀ p,
      SignEvent.signFile p ∈ signWalk execOf md t → fileLenBound md ≤ p.length := by
  intro md t
  induction md, t using signWalk.induct execOf with
  | case1 parentDir nm =>
    intro p hp
    simp [signWalk] at hp
  | case2 parentDir nm children ih =>
    intro p hp
    simp only [signWalk, List.mem_append] at hp
    rcases hp with (hp | hp) | hp
    · simp only [List.mem_join, List.mem_map, List.mem_filter] at hp
      obtain ⟨l, ⟨c, ⟨_, _⟩, rfl⟩, hpl⟩ := hp
      have := ih c p hpl
      simp only [fileLenBound] at this ⊢
      simp only [List.length_append, List.length_cons, List.length_nil] at this
      omega
    · have := clearkeyEvents_mem _ _ _ hp
      have hlen : p = (parentDir ++ [nm])
          ++ ["Contents", "Resources", "gmp-clearkey", "0.1", "libclearkey.dylib"] := by
        injection this with h
      rw [hlen]
      simp [fileLenBound, List.length_append]
    · simp at hp
  | case3 ap ex nm =>
    intro p hp
    simp [signWalk] at hp
  | case4 ap ex nm children ih =>
    intro p hp
    simp only [signWalk, List.mem_join, List.mem_map, List.mem_filter] at hp
    obtain ⟨l, ⟨c, ⟨_, _⟩, rfl⟩, hpl⟩ := hp
    have := ih c p hpl
    simp only [fileLenBound] at this ⊢
    simp only [List.length_cons, List.length_nil] at this
    omega
  | case5 ap ex rel nm =>
    intro p hp
    simp [signWalk] at hp
  | case6 ap ex rel nm children ihApp ihDescend =>
    intro p hp
    simp only [signWalk, List.mem_append] at hp
    rcases hp with (hp | hp) | hp
    · simp only [List.mem_join, List.mem_map, List.mem_filter] at hp
      obtain ⟨l, ⟨c, ⟨_, _⟩, rfl⟩, hpl⟩ := hp
      have := ihApp c p hpl
      simp only [fileLenBound] at this ⊢
      simp only [List.length_append] at this
      omega
    · split at hp
      · cases hp
      · simp only [List.mem_filterMap] at hp
        obtain ⟨f, _, hf⟩ := hp
        split at hf
        · cases hf
        · have hpf : p = ap ++ rel ++ [f] := by
            injection hf with h
            injection h with h2
            exact h2.symm
          rw [hpf]
          simp only [fileLenBound, List.length_append, List.length_cons, List.length_nil]
          omega
    · simp only [List.mem_join, List.mem_map, List.mem_filter] at hp
      obtain ⟨l, ⟨c, ⟨_, _⟩, rfl⟩, hpl⟩ := hp
      have := ihDescend c p hpl
      simp only [fileLenBound] at this ⊢
      simp only [List.length_append, List.length_cons, List.length_nil] at this
      omega

theorem signWalk_signBundle_length (execOf : List String → String) :
    ∀ (md : WalkMode) (t : FSTree), ∀ q,
      SignEvent.signBundle q ∈ signWalk execOf md t → bundleLenBound md ≤ q.length := by
  intro md t
  induction md, t using signWalk.induct execOf with
  | case1 parentDir nm =>
    intro q hq
    simp [signWalk] at hq
  | case2 parentDir nm children ih =>
    intro q hq
    simp only [signWalk, List.mem_append] at hq
    rcases hq with (hq | hq) | hq
    · simp only [List.mem_join, List.mem_map, List.mem_filter] at hq
      obtain ⟨l, ⟨c, ⟨_, _⟩, rfl⟩, hql⟩ := hq
      have := ih c q hql
      simp only [bundleLenBound] at this ⊢
      simp only [List.length_append, List.length_cons, List.length_nil] at this
      omega
    · have := clearkeyEvents_mem _ _ _ hq
      cases this
    · simp only [List.mem_singleton] at hq
      have hql : q = parentDir ++ [nm] := by
        injection hq with h
      rw [hql]
      simp [bundleLenBound, List.length_append]
  | case3 ap ex nm =>
    intro q hq
    simp [signWalk] at hq
  | case4 ap ex nm children ih =>
    intro q hq
    simp only [signWalk, List.mem_join, List.mem_map, List.mem_filter] at hq
    obtain ⟨l, ⟨c, ⟨_, _⟩, rfl⟩, hql⟩ := hq
    have := ih c q hql
    simp only [bundleLenBound] at this ⊢
    simp only [List.length_cons, List.length_nil] at this
    omega
  | case5 ap ex rel nm =>
    intro q hq
    simp [signWalk] at hq
  | case6 ap ex rel nm children ihApp ihDescend =>
    intro q hq
    simp only [signWalk, List.mem_append] at hq
    rcases hq with (hq | hq) | hq
    · simp only [List.mem_join, List.mem_map, List.mem_filter] at hq
      obtain ⟨l, ⟨c, ⟨_, _⟩, rfl⟩, hql⟩ := hq
      have := ihApp c q hql
      simp only [bundleLenBound] at this ⊢
      simp only [List.length_append] at this
      omega
    · split at hq
      · cases hq
      · simp only [List.mem_filterMap] at hq
        obtain ⟨f, _, hf⟩ := hq
        split at hf
        · cases hf
        · cases hf
    · simp only [List.mem_join, List.mem_map, List.mem_filter] at hq
      obtain ⟨l, ⟨c, ⟨_, _⟩, rfl⟩, hql⟩ := hq
      have := ihDescend c q hql
      simp only [bundleLenBound] at this ⊢
      simp only [List.length_append, List.length_cons, List.length_nil] at this
      omega

/-- The path the walk must never sign individually: the principal
executable `Contents/MacOS/<ex>` of the app at `ap`; at the `.app` position
no single path is distinguished. -/
def badTarget : WalkMode → Option (List String)
  | .app _ => none
  | .contents ap ex => some (ap ++ ["Contents", "MacOS", ex])
  | .dirWalk ap ex _ => some (ap ++ ["Contents", "MacOS", ex])

theorem signWalk_skips_exec (execOf : List String → String) :
    ∀ (md : WalkMode) (t : FSTree), ∀ p,
      SignEvent.signFile p ∈ signWalk execOf md t →
      ∀ bad, badTarget md = some bad → p ≠ bad := by
  intro md t
  induction md, t using signWalk.induct execOf with
  | case1 parentDir nm =>
    intro p hp
    simp [signWalk] at hp
  | case2 parentDir nm children ih =>
    intro p hp bad hbad
    simp [badTarget] at hbad
  | case3 ap ex nm =>
    intro p hp
    simp [signWalk] at hp
  | case4 ap ex nm children ih =>
    intro p hp bad hbad
    simp only [badTarget, Option.some.injEq] at hbad
    simp only [signWalk, List.mem_join, List.mem_map, List.mem_filter] at hp
    obtain ⟨l, ⟨c, ⟨_, _⟩, rfl⟩, hpl⟩ := hp
    exact ih c p hpl bad (by rw [← hbad]; rfl)
  | case5 ap ex rel nm =>
    intro p hp
    simp [signWalk] at hp
  | case6 ap ex rel nm children ihApp ihDescend =>
    intro p hp bad hbad
    simp only [badTarget, Option.some.injEq] at hbad
    subst hbad
    simp only [signWalk, List.mem_append] at hp
    rcases hp with (hp | hp) | hp
    · -- nested .app recursion: its file events lie strictly deeper
      simp only [List.mem_join, List.mem_map, List.mem_filter] at hp
      obtain ⟨l, ⟨c, ⟨_, _⟩, rfl⟩, hpl⟩ := hp
      have hlen := signWalk_signFile_length execOf _ _ p hpl
      simp only [fileLenBound, List.length_append] at hlen
      intro hcontra
      have := congrArg List.length hcontra
      simp only [List.length_append, List.length_cons, List.length_nil] at this
      omega
    · -- the files loop: the executable's name is skipped
      split at hp
      · cases hp
      · simp only [List.mem_filterMap] at hp
        obtain ⟨f, _, hf⟩ := hp
        split at hf
        case isTrue => cases hf
        case isFalse hfe =>
          have hpf : p = ap ++ rel ++ [f] := by
            injection hf with h
            injection h with h2
            exact h2.symm
          subst hpf
          intro hcontra
          rw [List.append_assoc] at hcontra
          have htail := List.append_cancel_left hcontra
          rcases rel with _ | ⟨a, _ | ⟨b, _ | ⟨c2, rest⟩⟩⟩ <;> simp_all
    · -- descend: same app, same executable
      simp only [List.mem_join, List.mem_map, List.mem_filter] at hp
      obtain ⟨l, ⟨c, ⟨_, _⟩, rfl⟩, hpl⟩ := hp
      exact ihDescend c p hpl _ rfl

/-- C8: during the recursive flat-strategy signing of a bundle, no
individual per-file signing invocation ever targets the bundle's principal
executable `Contents/MacOS/<CFBundleExecutable>`; it is covered only by the
whole-bundle signature event. -/
theorem sign_app_main_executable_skipped (execOf : List String → String)
    (parentDir : List String) (nm : String) (children : List FSTree) :
    ((sign_app execOf parentDir (FSTree.dir nm children)).all
      fun e => decide (e ≠ SignEvent.signFile
        ((parentDir ++ [nm]) ++ ["Contents", "MacOS", execOf (parentDir ++ [nm])]))) = true := by
  rw [List.all_eq_true]
  intro e he
  rw [decide_eq_true_eq]
  intro hcontra
  subst hcontra
  unfold sign_app at he
  simp only [signWalk, List.mem_append] at he
  rcases he with (he | he) | he
  · simp only [List.mem_join, List.mem_map, List.mem_filter] at he
    obtain ⟨l, ⟨c, ⟨_, _⟩, rfl⟩, hel⟩ := he
    exact signWalk_skips_exec execOf _ _ _ hel _ rfl rfl
  · have := clearkeyEvents_mem _ _ _ he
    have hpaths := (SignEvent.signFile.injEq _ _).mp this
    have hc := List.append_cancel_left hpaths
    simp at hc
  · simp at he

/-! ## C5: depth-first ordering of the recursive signer -/

/-- The non-root directories `os.walk` visits during the signing of an app
whose `.app` directory has children `rootChildren`: a directory kept by the
root pruning under the `Contents` entry, or any subdirectory of an already
visited one (the walk does not stop at nested `.app` directories).  `rel`
is the path of the visited directory relative to the app directory. -/
inductive WalkedDir (rootChildren : List FSTree) : FSTree → List String → Prop where
  | root (c : FSTree) (hc : c ∈ rootChildren) (hcd : isContentsDir c = true)
      (d : FSTree) (hd : d ∈ childrenOf c) (hdd : isDirB d = true)
      (hk : nameOf d ∈ pruneRoot (dirNames (childrenOf c)) 0) :
      WalkedDir rootChildren d ["Contents", nameOf d]
  | step (t : FSTree) (rel : List String) (hw : WalkedDir rootChildren t rel)
      (d : FSTree) (hd : d ∈ childrenOf t) (hdd : isDirB d = true) :
      WalkedDir rootChildren d (rel ++ [nameOf d])

theorem walkContents_inside (execOf : List String → String) (parentDir : List String)
    (nm : String) (children : List FSTree) (c : FSTree)
    (hc : c ∈ children) (hcd : isContentsDir c = true) :
    signWalk execOf (.contents (parentDir ++ [nm]) (execOf (parentDir ++ [nm]))) c
      <:+: (sign_app execOf parentDir (FSTree.dir nm children)).dropLast := by
  unfold sign_app
  simp only [signWalk]
  rw [List.dropLast_concat]
  have h1 : signWalk execOf
      (.contents (parentDir ++ [nm]) (execOf (parentDir ++ [nm]))) c
      ∈ (children.attach.filter (fun x => isContentsDir x.1)).map
        (fun x => signWalk execOf
          (.contents (parentDir ++ [nm]) (execOf (parentDir ++ [nm]))) x.1) := by
    refine List.mem_map.mpr ⟨⟨c, hc⟩, ?_, rfl⟩
    rw [List.mem_filter]
    exact ⟨List.mem_attach _ _, hcd⟩
  exact (List.infix_of_mem_join h1).trans (List.prefix_append _ _).isInfix

theorem contents_child_inside (execOf : List String → String) (ap : List String)
    (ex cnm : String) (cch : List FSTree) (d : FSTree)
    (hd : d ∈ cch) (hdd : isDirB d = true)
    (hk : nameOf d ∈ pruneRoot (dirNames cch) 0) :
    signWalk execOf (.dirWalk ap ex ["Contents", nameOf d]) d
      <:+: signWalk execOf (.contents ap ex) (FSTree.dir cnm cch) := by
  simp only [signWalk]
  have h1 : signWalk execOf (.dirWalk ap ex ["Contents", nameOf d]) d
      ∈ (cch.attach.filter
          (fun x => isDirB x.1 && decide (nameOf x.1 ∈ pruneRoot (dirNames cch) 0))).map
        (fun x => signWalk execOf (.dirWalk ap ex ["Contents", nameOf x.1]) x.1) := by
    refine List.mem_map.mpr ⟨⟨d, hd⟩, ?_, rfl⟩
    rw [List.mem_filter]
    refine ⟨List.mem_attach _ _, ?_⟩
    simp [hdd, hk]
  exact List.infix_of_mem_join h1

theorem dirWalk_child_inside (execOf : List String → String) (ap : List String)
    (ex : String) (rel : List String) (nm2 : String) (cch : List FSTree) (d : FSTree)
    (hd : d ∈ cch) (hdd : isDirB d = true) :
    signWalk execOf (.dirWalk ap ex (rel ++ [nameOf d])) d
      <:+: signWalk execOf (.dirWalk ap ex rel) (FSTree.dir nm2 cch) := by
  simp only [signWalk]
  have h1 : signWalk execOf (.dirWalk ap ex (rel ++ [nameOf d])) d
      ∈ (cch.attach.filter (fun x => isDirB x.1)).map
        (fun x => signWalk execOf (.dirWalk ap ex (rel ++ [nameOf x.1])) x.1) := by
    refine List.mem_map.mpr ⟨⟨d, hd⟩, ?_, rfl⟩
    rw [List.mem_filter]
    exact ⟨List.mem_attach _ _, hdd⟩
  exact (List.infix_of_mem_join h1).trans (List.suffix_append _ _).isInfix

theorem dirWalk_app_inside (execOf : List String → String) (ap : List String)
    (ex : String) (rel : List String) (nm2 : String) (cch : List FSTree) (d : FSTree)
    (hd : d ∈ cch) (hdd : isDirB d = true)
    (happ : strEndsWithS (nameOf d) ".app" = true) :
    sign_app execOf (ap ++ rel) d
      <:+: signWalk execOf (.dirWalk ap ex rel) (FSTree.dir nm2 cch) := by
  unfold sign_app
  simp only [signWalk]
  have h1 : signWalk execOf (.app (ap ++ rel)) d
      ∈ (cch.attach.filter (fun x => isDirB x.1 && strEndsWithS (nameOf x.1) ".app")).map
        (fun x => signWalk execOf (.app (ap ++ rel)) x.1) := by
    refine List.mem_map.mpr ⟨⟨d, hd⟩, ?_, rfl⟩
    rw [List.mem_filter]
    refine ⟨List.mem_attach _ _, ?_⟩
    simp [hdd, happ]
  refine (List.infix_of_mem_join h1).trans ?_
  rw [List.append_assoc]
  exact (List.prefix_append _ _).isInfix

theorem walkedDir_inside (execOf : List String → String) (parentDir : List String)
    (nm : String) (children : List FSTree) :
    ∀ (t : FSTree) (rel : List String), WalkedDir children t rel →
      signWalk execOf
          (.dirWalk (parentDir ++ [nm]) (execOf (parentDir ++ [nm])) rel) t
        <:+: (sign_app execOf parentDir (FSTree.dir nm children)).dropLast := by
  intro t rel hw
  induction hw with
  | root c hc hcd d hd hdd hk =>
    cases c with
    | file cnm => simp [isContentsDir] at hcd
    | dir cnm cch =>
      simp only [childrenOf] at hd hk
      exact (contents_child_inside execOf _ _ cnm cch d hd hdd hk).trans
        (walkContents_inside execOf parentDir nm children _ hc hcd)
  | step t rel hw d hd hdd ih =>
    cases t with
    | file tnm => simp [childrenOf] at hd
    | dir tnm tch =>
      simp only [childrenOf] at hd
      exact (dirWalk_child_inside execOf _ _ rel tnm tch d hd hdd).trans ih

/-- C5: for every bundle, (i) the whole-bundle signature of the bundle
itself is the last signing call of its trace; (ii) it occurs nowhere
earlier in the trace (every earlier whole-bundle event signs a strictly
longer path, i.e. a nested bundle); (iii) for every directory the walk
visits and every `.app` directory found there, the complete recursive
signing of that nested bundle — `sign_app` of the nested bundle, which by
(i) ends with the nested bundle's own whole-bundle signature — occurs as a
contiguous block strictly before the outer bundle's signature (it is an
infix of the trace with the final outer-signature event removed). -/
theorem sign_app_depth_first (execOf : List String → String)
    (parentDir : List String) (nm : String) (children : List FSTree) :
    ((sign_app execOf parentDir (FSTree.dir nm children)).getLast?
      = some (.signBundle (parentDir ++ [nm]))) ∧
    (∀ q, SignEvent.signBundle q
        ∈ (sign_app execOf parentDir (FSTree.dir nm children)).dropLast →
      q ≠ parentDir ++ [nm]) ∧
    (∀ (t : FSTree) (rel : List String), WalkedDir children t rel →
      ∀ d ∈ childrenOf t, isDirB d = true → strEndsWithS (nameOf d) ".app" = true →
        sign_app execOf ((parentDir ++ [nm]) ++ rel) d
          <:+: (sign_app execOf parentDir (FSTree.dir nm children)).dropLast) := by
  refine ⟨?_, ?_, ?_⟩
  · unfold sign_app
    simp only [signWalk]
    rw [List.getLast?_concat]
  · intro q hq
    unfold sign_app at hq
    simp only [signWalk] at hq
    rw [List.dropLast_concat] at hq
    rcases List.mem_append.mp hq with hq | hq
    · simp only [List.mem_join, List.mem_map, List.mem_filter] at hq
      obtain ⟨l, ⟨c, ⟨_, _⟩, rfl⟩, hql⟩ := hq
      have hlen := signWalk_signBundle_length execOf _ _ q hql
      simp only [bundleLenBound, List.length_append, List.length_cons,
        List.length_nil] at hlen
      intro hcontra
      have := congrArg List.length hcontra
      simp only [List.length_append, List.length_cons, List.length_nil] at this
      omega
    · have := clearkeyEvents_mem _ _ _ hq
      cases this
  · intro t rel hw d hd hdd happ
    cases t with
    | file tnm => simp [childrenOf] at hd
    | dir tnm tch =>
      simp only [childrenOf] at hd
      exact (dirWalk_app_inside execOf _ _ rel tnm tch d hd hdd happ).trans
        (walkedDir_inside execOf parentDir nm children _ rel hw)

/-- A sample bundle: `A.app` contains a nested `B.app` inside
`Contents/MacOS` next to a plain file `f` and the principal executable
`MainExec`. -/
def demoTree : FSTree :=
  .dir "A.app" [.dir "Contents" [.dir "MacOS"
    [.dir "B.app" [.dir "Contents" [.dir "MacOS" [.file "g"]]],
     .file "f", .file "MainExec"]]]

/-- Sanity evaluation of the trace model on `demoTree`: the nested bundle's
file and whole-bundle signatures come first, the outer per-file signing
skips the principal executable, and the outer whole-bundle signature is
last. -/
theorem sign_app_demo_trace :
    sign_app (fun _ => "MainExec") [] demoTree
      = [.signFile ["A.app", "Contents", "MacOS", "B.app", "Contents", "MacOS", "g"],
         .signBundle ["A.app", "Contents", "MacOS", "B.app"],
         .signFile ["A.app", "Contents", "MacOS", "f"],
         .signBundle ["A.app"]] := by
  simp [sign_app, signWalk, demoTree, pruneRoot, dirNames, fileNames, nameOf, isDirB,
    isContentsDir, SIGN_DIRS, clearkeyEvents, pathJoin, strContainsS, strContains,
    strEndsWithS, strEndsWith, hasFileAt, findChild, List.attach, List.attachWith,
    List.filter, List.pmap, List.isSuffixOf, List.isPrefixOf]

end Iscript
